import Mathlib

/-!
Verification development for the two desktop utilities of this repository:
the file combiner (`combined.py`, function `combine_files_to_single_file_gui`)
and the storage analyzer's directory scanner
(`storage_analyzer_gui.py`, `FileFolderScanWorker.run`).

The filesystem is modelled as a finite tree of directories.  Paths are
represented as lists of path segments relative to the scan root (the root
itself is `[]`); this mirrors the POSIX string paths of the source, where
`os.path.dirname` drops the last segment and `os.sep`-counting measures
depth.  Every directory entry carries the data the two programs inspect:
its name, its text content (read by the combiner), its `os.stat` size, an
`isLink` flag (`os.path.islink`), a `statOk` flag (false when `os.stat`
raises, e.g. permission errors or vanished files) and a `readOk` flag
(false when `open`/`read` raises, e.g. `UnicodeDecodeError`).

`os.walk` is used by both programs with its default `followlinks=False`,
so a symbolic link to a directory is never descended into; the model's
`subdirs` therefore contains the traversable directories.  Note that
`FileFolderScanWorker.run` contains no `islink` check for files: it calls
`os.stat`, which follows symlinks, so the scanner's definitions below
deliberately ignore `isLink` (while the combiner checks it), exactly as
the source does.
-/

namespace StorageRepo

/-- A file entry of one directory: the observable facts the two programs
can see about it through the OS. -/
structure FileEnt where
  name : String
  content : String
  size : Nat
  isLink : Bool
  statOk : Bool
  readOk : Bool
deriving Repr, DecidableEq

/-- A directory tree: the files directly inside the directory and its
named subdirectories. -/
inductive FSTree where
  | node (files : List FileEnt) (subdirs : List (String × FSTree))

/-- Files directly inside the root of the tree. -/
def FSTree.files : FSTree → List FileEnt
  | .node fs _ => fs

/-- Named subdirectories of the root of the tree. -/
def FSTree.subdirs : FSTree → List (String × FSTree)
  | .node _ sd => sd

mutual
/-- Well-formedness of a directory tree: within each directory, file names
and subdirectory names are distinct (as they are on a real filesystem,
where a directory cannot hold two entries of the same name). -/
def FSTree.wfb : FSTree → Bool
  | .node fs subs =>
    decide (fs.map FileEnt.name).Nodup && decide (subs.map Prod.fst).Nodup &&
      FSTree.wfForest subs
/-- Well-formedness of a list of named subtrees. -/
def FSTree.wfForest : List (String × FSTree) → Bool
  | [] => true
  | (_, t) :: rest => t.wfb && FSTree.wfForest rest
end

mutual
/-- Membership of a file entry: `t.hasFile p f` holds when the directory at
relative path `p` below `t` exists and directly contains the entry `f`. -/
def FSTree.hasFile : FSTree → List String → FileEnt → Bool
  | .node fs _, [], f => fs.contains f
  | .node _ subs, d :: p, f => FSTree.forestHasFile subs d p f
/-- Membership of a file entry below one of a list of named subtrees. -/
def FSTree.forestHasFile : List (String × FSTree) → String → List String → FileEnt → Bool
  | [], _, _, _ => false
  | (n, t) :: rest, d, p, f => (n == d && t.hasFile p f) || FSTree.forestHasFile rest d p f
end

mutual
/-- Sum of the sizes of all files anywhere in the tree. -/
def FSTree.totalSize : FSTree → Nat
  | .node fs subs => (fs.map FileEnt.size).sum + FSTree.forestTotalSize subs
/-- Sum of the sizes of all files anywhere below a list of named subtrees. -/
def FSTree.forestTotalSize : List (String × FSTree) → Nat
  | [] => 0
  | (_, t) :: rest => t.totalSize + FSTree.forestTotalSize rest
end

mutual
/-- Every file anywhere in the tree has a succeeding `os.stat`. -/
def FSTree.allStatOk : FSTree → Bool
  | .node fs subs => fs.all (·.statOk) && FSTree.forestAllStatOk subs
/-- Every file anywhere below a list of named subtrees has a succeeding
`os.stat`. -/
def FSTree.forestAllStatOk : List (String × FSTree) → Bool
  | [] => true
  | (_, t) :: rest => t.allStatOk && FSTree.forestAllStatOk rest
end

/-! ## The file combiner (`combined.py`)

`combine_files_to_single_file_gui(root_dir, output_full_path,
excluded_dirs_list, excluded_files_list, included_dirs_list,
included_files_list, status_callback)` walks the tree with `os.walk`,
filters directories and files, reads each chosen file and appends three
strings per file to `combined_content`, then joins the pieces and writes
them to the output path. -/

/-- The four basename lists of a combiner invocation. -/
structure FilterConfig where
  excludedDirs : List String
  excludedFiles : List String
  includedDirs : List String
  includedFiles : List String
deriving Repr, DecidableEq

/-- Source line `use_include_mode = bool(included_dirs_list or
included_files_list)`. -/
def FilterConfig.useIncludeMode (cfg : FilterConfig) : Bool :=
  !cfg.includedDirs.isEmpty || !cfg.includedFiles.isEmpty

/-- Directory pruning test of the include mode: the walk prunes (empties
`dirnames` and skips the files of) the directory at relative path `rel`
iff include mode is on, `included_dirs_set` is non-empty, the directory is
not the scan root, and no segment of its relative path is an included
directory name. -/
def prunedHere (cfg : FilterConfig) (rel : List String) : Bool :=
  cfg.useIncludeMode && !cfg.includedDirs.isEmpty && !rel.isEmpty &&
    !(rel.any (fun seg => cfg.includedDirs.contains seg))

/-- File choice of `files_to_process` (after the symbolic-link skip), per
the mode logic of the source: in include mode a non-empty
`included_files_set` admits exactly its members and an empty one admits
every file; in exclude mode a file is admitted iff its name is not in
`excluded_files_set`. -/
def fileSelected (cfg : FilterConfig) (f : FileEnt) : Bool :=
  if cfg.useIncludeMode then
    if !cfg.includedFiles.isEmpty then cfg.includedFiles.contains f.name
    else true
  else !cfg.excludedFiles.contains f.name

/-- Relative path string of a segment list, joined with the path
separator, as `os.path.relpath` produces on POSIX. -/
def relStr (segs : List String) : String :=
  String.intercalate "/" segs

/-- Test that the walk descends from a visited directory into the
subdirectory named `n`: in include mode `dirnames` is left untouched
(pruning of a whole directory is handled by `prunedHere`), in exclude mode
the source keeps `dirnames = [d for d in dirnames if d not in
excluded_dirs_set]`. -/
def descendInto (cfg : FilterConfig) (n : String) : Bool :=
  cfg.useIncludeMode || !cfg.excludedDirs.contains n

mutual
/-- The combiner's walk, producing the `combined_content` list of strings:
for every directory visited (in `os.walk` pre-order) and every chosen,
successfully read file, the three pieces
`"\n--- START FILE: {rel} ---\n\n"`, the content, and
`"\n\n--- END FILE: {rel} ---\n"` are appended, exactly as in the source.
In include mode a pruned directory contributes nothing and none of its
subdirectories are entered; in exclude mode a subdirectory removed from
`dirnames` is never entered (expressed here by skipping it during the
recursion, which yields the same traversal as filtering the list). -/
def combineWalkPieces (cfg : FilterConfig) : FSTree → List String → List String
  | .node fs subs, rel =>
    if prunedHere cfg rel then []
    else
      let chosen := fs.filter (fun f => !f.isLink && fileSelected cfg f)
      let pieces := chosen.flatMap (fun f =>
        if f.readOk then
          ["\n--- START FILE: " ++ relStr (rel ++ [f.name]) ++ " ---\n\n",
           f.content,
           "\n\n--- END FILE: " ++ relStr (rel ++ [f.name]) ++ " ---\n"]
        else [])
      pieces ++ combineForestPieces cfg subs rel
/-- The combiner's walk over a list of named subtrees. -/
def combineForestPieces (cfg : FilterConfig) :
    List (String × FSTree) → List String → List String
  | [], _ => []
  | (n, t) :: rest, rel =>
    (if descendInto cfg n then combineWalkPieces cfg t (rel ++ [n]) else []) ++
      combineForestPieces cfg rest rel
end

mutual
/-- The same walk, recorded as framed blocks: one `(relative path of the
file as segments, content)` pair per chosen, successfully read file, in
traversal order.  This is the structured view of `combineWalkPieces`. -/
def combineWalkBlocks (cfg : FilterConfig) : FSTree → List String → List (List String × String)
  | .node fs subs, rel =>
    if prunedHere cfg rel then []
    else
      let chosen := fs.filter (fun f => !f.isLink && fileSelected cfg f)
      let blocks := chosen.filterMap (fun f =>
        if f.readOk then some (rel ++ [f.name], f.content) else none)
      blocks ++ combineForestBlocks cfg subs rel
/-- Block view of the walk over a list of named subtrees. -/
def combineForestBlocks (cfg : FilterConfig) :
    List (String × FSTree) → List String → List (List String × String)
  | [], _ => []
  | (n, t) :: rest, rel =>
    (if descendInto cfg n then combineWalkBlocks cfg t (rel ++ [n]) else []) ++
      combineForestBlocks cfg rest rel
end

/-- Result of one combiner invocation: the content written to the output
file, when the final write happens, and the boolean return value. -/
structure CombineOutcome where
  output : Option String
  ok : Bool
deriving Repr, DecidableEq

/-- The combiner `combine_files_to_single_file_gui`.  The three boolean
parameters model the environment conditions the source checks or relies
on: `rootIsDir` is `os.path.isdir(root_dir)`; `outDirOk` says the output
directory exists or `os.makedirs` succeeded; `writeOk` says the final
`open(output_full_path, "w")` and write raise no exception.  On success
the output file receives `"".join(combined_content)`. -/
def combine_files_to_single_file_gui (rootIsDir outDirOk writeOk : Bool)
    (t : FSTree) (cfg : FilterConfig) : CombineOutcome :=
  if !rootIsDir then ⟨none, false⟩
  else if !outDirOk then ⟨none, false⟩
  else if writeOk then ⟨some (String.join (combineWalkPieces cfg t [])), true⟩
  else ⟨none, false⟩

/-! ## The storage analyzer's scanner (`storage_analyzer_gui.py`)

`FileFolderScanWorker.run` walks the whole tree with `os.walk` (no
filtering, `followlinks=False`), builds `file_details` and
`folder_direct_file_sizes`, synthesizes missing ancestor directories,
sorts all known directory paths deepest-first and folds each directory's
aggregate size into its parent's.  Paths are relative segment lists; the
scan root is `[]`, `os.path.dirname` is `List.dropLast`, and the
`x.count(os.sep)` sort key is the segment count. -/

mutual
/-- The `os.walk` item sequence of the scanner, in pre-order: for each
visited directory its relative path, the number of its subdirectories
(the source adds `len(dirs)` to `total_scanned_items`) and its files. -/
def walkList : FSTree → List String → List (List String × Nat × List FileEnt)
  | .node fs subs, p => (p, subs.length, fs) :: walkForest subs p
/-- The `os.walk` item sequence below a list of named subtrees. -/
def walkForest : List (String × FSTree) → List String → List (List String × Nat × List FileEnt)
  | [], _ => []
  | (n, t) :: rest, p => walkList t (p ++ [n]) ++ walkForest rest p
end

/-- Extension of a file name per `os.path.splitext`: the suffix that
starts at the last dot, provided some character before that dot is not
itself a dot (so names of leading dots only, like `.bashrc`, have no
extension). -/
def splitextExt (s : String) : String :=
  let cs := s.toList
  match ((List.range cs.length).filter (fun i => cs.getD i ' ' = '.')).getLast? with
  | none => ""
  | some i =>
    if (List.range i).any (fun j => cs.getD j ' ' ≠ '.') then String.mk (cs.drop i) else ""

/-- Row of `file_details` for one file whose `os.stat` succeeded: the
observable fields of the source's record (timestamps, which the claims do
not mention, are omitted).  Note the absence of any symbolic-link check:
`os.stat` follows links, so `isLink` plays no role here. -/
structure FileRec where
  path : List String
  name : String
  size : Nat
  ext : String
  parent : List String
deriving Repr, DecidableEq

/-- Row of `folder_data` for one directory. -/
structure FolderRec where
  path : List String
  name : String
  size : Nat
  parent : Option (List String)
deriving Repr, DecidableEq

/-- The `file_details` record built for the file `f` of the directory at
relative path `p`. -/
def fileRecOf (p : List String) (f : FileEnt) : FileRec :=
  { path := p ++ [f.name], name := f.name, size := f.size,
    ext := (splitextExt f.name).toLower, parent := p }

/-- All `file_details` records of a scan: one per file whose `os.stat`
succeeded, in walk order.  Files with a failing stat are silently
skipped (`except FileNotFoundError: pass` etc.). -/
def scanFileRecs (t : FSTree) : List FileRec :=
  (walkList t []).flatMap (fun it => (it.2.2.filter (·.statOk)).map (fileRecOf it.1))

/-- Direct file-size sum a directory's visit adds to
`folder_direct_file_sizes`: the sizes of its files whose `os.stat`
succeeded. -/
def dirDirect (fs : List FileEnt) : Nat :=
  ((fs.filter (·.statOk)).map (·.size)).sum

/-- The dictionary `folder_direct_file_sizes` as a function: each visit of
a directory at path `p` adds the stat-able sizes of its files into the
entry for `p` (absent keys read as 0). -/
def folder_direct_file_sizes (t : FSTree) : List String → Nat :=
  (walkList t []).foldl
    (fun m it => fun x => if x = it.1 then m x + dirDirect it.2.2 else m x)
    (fun _ => 0)

/-- Insertion into a set represented as a duplicate-free list, modelling
Python's `set.add`. -/
def listInsert (l : List (List String)) (x : List String) : List (List String) :=
  if x ∈ l then l else l ++ [x]

/-- The set `all_scanned_paths` right after the walk: every `root` yielded
by `os.walk`. -/
def all_scanned_paths (t : FSTree) : List (List String) :=
  (walkList t []).foldl (fun acc it => listInsert acc it.1) []

/-- The proper non-root ancestors the source's `while` loop adds for a
path: `os.path.dirname` applied repeatedly, stopping before the scan
root, i.e. every prefix of length `1 .. p.length - 1`. -/
def properAncestors (p : List String) : List (List String) :=
  ((List.range p.length).filter (fun k => k ≠ 0)).map (fun k => p.take k)

/-- Closure of the scanned-path set: the source adds every ancestor
strictly between each known path and the scan root, then the scan root
itself if missing. -/
def closePaths (l : List (List String)) : List (List String) :=
  listInsert (l.foldl (fun acc p => (properAncestors p).foldl listInsert acc) l) []

/-- Keys of `folder_aggregate_sizes`: the closed scanned-path set. -/
def aggKeys (t : FSTree) : List (List String) :=
  closePaths (all_scanned_paths t)

/-- Lexicographic comparison of character lists by code point, which is
how Python compares the path strings used as the secondary sort key. -/
def charsLe : List Char → List Char → Bool
  | [], _ => true
  | _ :: _, [] => false
  | c :: cs, d :: ds => if c = d then charsLe cs ds else decide (c.toNat < d.toNat)

/-- Python's `<=` on strings: code-point lexicographic order. -/
def strLe (a b : String) : Bool :=
  charsLe a.toList b.toList

/-- Sort order of `sorted(list(all_scanned_paths), key=lambda x:
(x.count(os.sep), x), reverse=True)`: deeper paths first, ties broken by
the descending order of the joined path string. -/
def aggOrder (a b : List String) : Bool :=
  decide (b.length < a.length) ||
    (a.length == b.length && strLe (relStr b) (relStr a))

/-- Insertion of an element into a list, in front of the first position
where the comparison allows it. -/
def insertSorted (le : List String → List String → Bool) (x : List String) :
    List (List String) → List (List String)
  | [] => [x]
  | y :: ys => if le x y then x :: y :: ys else y :: insertSorted le x ys

/-- Insertion sort implementing Python's `sorted`.  The comparison used
with it (`aggOrder`) is a total preorder whose ties are broken by the
joined path string, so on the duplicate-free path sets of a scan the
result is the unique sorted arrangement, independent of the algorithm. -/
def sortBy (le : List String → List String → Bool) (l : List (List String)) :
    List (List String) :=
  l.foldr (insertSorted le) []

/-- One step of the upward propagation loop: for a non-root path whose
parent is a known key, add the path's aggregate size into the parent's. -/
def aggStep (keys : List (List String)) (m : List String → Nat) (p : List String) :
    List String → Nat :=
  if p ≠ [] ∧ p.dropLast ∈ keys then
    fun x => if x = p.dropLast then m x + m p else m x
  else m

/-- The dictionary `folder_aggregate_sizes` after the aggregation loop:
initialized to the direct sizes (0 for synthesized ancestors), then each
path, deepest first, adds its aggregate into its parent's. -/
def folder_aggregate_sizes (t : FSTree) : List String → Nat :=
  (sortBy aggOrder (aggKeys t)).foldl (aggStep (aggKeys t)) (folder_direct_file_sizes t)

/-- All `folder_data` records of a completed scan, one per key of
`folder_aggregate_sizes`.  The source's final `startswith` restriction to
the scan root's hierarchy is vacuous here because all model paths are
relative to the scan root. -/
def scanFolderRecs (t : FSTree) : List FolderRec :=
  (aggKeys t).map (fun p =>
    { path := p, name := p.getLastD (relStr p), size := folder_aggregate_sizes t p,
      parent := if p = [] then none else some p.dropLast })

/-! ## The scanner's event behaviour and cooperative cancellation

`FileFolderScanWorker.run` emits Qt signals: `progress(pct, msg)`,
`error(msg)` and `finished(df_files, df_folders, path)`.  The `cancel()`
slot sets `_is_cancelled`, which `run` polls at the top of each directory
iteration, before each file, and at each step of the aggregation loop.
The flag's value at the n-th poll (counting from 0) is modelled by a
function `cancel : Nat → Bool`, so one run is a pure function of the
tree, the validity of the root and that polling oracle. -/

/-- One emitted signal of a scan run. -/
inductive ScanEvent where
  | progress (pct : Nat) (msg : String)
  | error (msg : String)
  | finished (files : List FileRec) (folders : List FolderRec)
deriving Repr, DecidableEq

/-- State threaded through the scanner's walk loop: polls performed so
far, `total_scanned_items`, `file_details`, `folder_direct_file_sizes`,
`all_scanned_paths`, and the signals emitted so far. -/
structure ScanSt where
  polls : Nat
  items : Nat
  fileRecs : List FileRec
  direct : List String → Nat
  paths : List (List String)
  events : List ScanEvent

/-- The inner `for file_name in files` loop: poll the flag (emitting the
cancellation error and stopping the run when set), count the item, then
`os.stat` the file — on success add its size to the current directory's
direct sum and append its record; on failure skip it silently. -/
def scanFilesLoop (cancel : Nat → Bool) (p : List String) :
    List FileEnt → ScanSt → Except (List ScanEvent) ScanSt
  | [], st => .ok st
  | f :: rest, st =>
    if cancel st.polls then .error (st.events ++ [.error "Scan cancelled by user."])
    else
      let st1 : ScanSt := { st with polls := st.polls + 1, items := st.items + 1 }
      let st2 : ScanSt :=
        if f.statOk then
          { st1 with
            direct := fun x => if x = p then st1.direct x + f.size else st1.direct x,
            fileRecs := st1.fileRecs ++ [fileRecOf p f] }
        else st1
      scanFilesLoop cancel p rest st2

/-- The outer `for root, dirs, files in os.walk(...)` loop: poll the flag,
record the directory in `all_scanned_paths` (its direct-size entry
defaults to 0), add `len(dirs)` to the item count, run the file loop, and
emit a throttled progress signal whenever `total_scanned_items` is a
multiple of `progress_update_interval = 1000`. -/
def scanWalkLoop (cancel : Nat → Bool) :
    List (List String × Nat × List FileEnt) → ScanSt → Except (List ScanEvent) ScanSt
  | [], st => .ok st
  | (p, nsubs, fs) :: rest, st =>
    if cancel st.polls then .error (st.events ++ [.error "Scan cancelled by user."])
    else
      let st1 : ScanSt :=
        { st with
            polls := st.polls + 1,
            paths := listInsert st.paths p,
            items := st.items + nsubs }
      match scanFilesLoop cancel p fs st1 with
      | .error evs => .error evs
      | .ok st2 =>
        let st3 : ScanSt :=
          if st2.items % 1000 == 0 then
            { st2 with events := st2.events ++
              [.progress (min (st2.items / 10000) 90)
                ("Scanning: " ++ toString st2.items ++ " items processed...")] }
          else st2
        scanWalkLoop cancel rest st3

/-- The upward propagation loop with its per-step cancellation poll. -/
def scanAggLoop (cancel : Nat → Bool) (keys : List (List String)) :
    List (List String) → Nat → (List String → Nat) →
      Except String (Nat × (List String → Nat))
  | [], polls, m => .ok (polls, m)
  | p :: rest, polls, m =>
    if cancel polls then .error "Scan cancelled by user during aggregation."
    else scanAggLoop cancel keys rest (polls + 1) (aggStep keys m p)

/-- The whole `FileFolderScanWorker.run`: validity check, walk with
per-directory and per-file polls, ancestor synthesis, deepest-first
aggregation with per-step polls, and the terminal signal — `finished`
with both record sets on success, `error` otherwise. -/
def FileFolderScanWorker.run (validDir : Bool) (t : FSTree) (cancel : Nat → Bool) :
    List ScanEvent :=
  if !validDir then [.error "Error: the scan path is not a valid directory."]
  else
    let st0 : ScanSt :=
      { polls := 0, items := 0, fileRecs := [], direct := fun _ => 0, paths := [],
        events := [.progress 0 "Starting scan..."] }
    match scanWalkLoop cancel (walkList t []) st0 with
    | .error evs => evs
    | .ok st =>
      let evs1 := st.events ++
        [.progress 90 "Finished file scan, now aggregating folder sizes..."]
      let keys := closePaths st.paths
      match scanAggLoop cancel keys (sortBy aggOrder keys) st.polls st.direct with
      | .error msg => evs1 ++ [.error msg]
      | .ok (_, agg) =>
        let folders := keys.map (fun p =>
          { path := p, name := p.getLastD (relStr p), size := agg p,
            parent := if p = [] then none else some p.dropLast : FolderRec })
        evs1 ++ [.progress 99 "Generating folder DataFrame...",
          .progress 100 "Scan complete.", .finished st.fileRecs folders]

/-- Count of polls performed by the walk loop over an item list: one per
directory plus one per file. -/
def pollsOfItems (items : List (List String × Nat × List FileEnt)) : Nat :=
  (items.map (fun it => 1 + it.2.2.length)).sum

/-- Total number of cancellation polls of an uncancelled run: one per
directory, one per file, one per aggregation step. -/
def totalPolls (t : FSTree) : Nat :=
  pollsOfItems (walkList t []) + (aggKeys t).length

/-- Terminal events: `error` and `finished`. -/
def ScanEvent.isTerminal : ScanEvent → Bool
  | .progress _ _ => false
  | .error _ => true
  | .finished _ _ => true

/-- Recognizes a `finished` signal. -/
def ScanEvent.isFinished : ScanEvent → Bool
  | .finished _ _ => true
  | _ => false

/-- The two cancellation messages of the source. -/
def isCancelMsg (m : String) : Bool :=
  m == "Scan cancelled by user." || m == "Scan cancelled by user during aggregation."

/-- Recognizes a cancellation `error` signal. -/
def ScanEvent.isCancelError : ScanEvent → Bool
  | .error m => isCancelMsg m
  | _ => false

/-! ## Concrete trees and configurations used by witnesses and
counterexamples -/

/-- A plain regular file entry: not a link, stat and read both succeed. -/
def plainFile (n : String) (c : String) (sz : Nat) : FileEnt :=
  { name := n, content := c, size := sz, isLink := false, statOk := true, readOk := true }

/-- The spec's scenario tree: root `/p` with `a/x.txt` (10 bytes),
`a/y.txt` (20 bytes) and `b/z.txt` (5 bytes). -/
def scenarioTree : FSTree :=
  .node [] [("a", .node [plainFile "x.txt" "cx" 10, plainFile "y.txt" "cy" 20] []),
            ("b", .node [plainFile "z.txt" "cz" 5] [])]

/-- A tree with a file at the root and a file nested under `a/src`. -/
def nestedIncludeTree : FSTree :=
  .node [plainFile "r.txt" "root-file" 1]
    [("a", .node [] [("src", .node [plainFile "f.txt" "inner" 2] [])])]

/-- An include-mode configuration selecting directories named `src`. -/
def includeSrcCfg : FilterConfig := ⟨[], [], ["src"], []⟩

/-- An exclude-mode configuration excluding directories named `b`. -/
def excludeBCfg : FilterConfig := ⟨["b"], [], [], []⟩

/-- The all-empty configuration: exclude mode that excludes nothing. -/
def emptyCfg : FilterConfig := ⟨[], [], [], []⟩

/-- A symbolic link as the scanner observes it: `os.stat` follows the
link, so `statOk` holds and `size` is the 7-byte target's size. -/
def linkEnt : FileEnt :=
  { name := "lnk.txt", content := "", size := 7, isLink := true, statOk := true, readOk := true }

/-- A directory holding a single symbolic link. -/
def linkTree : FSTree := .node [linkEnt] []

/-- A root directory that already contains the combiner's output file. -/
def outputFileTree : FSTree := .node [plainFile "combined.txt" "old content" 11] []

/-- A tree whose single file is excluded by `excludeATxtCfg`. -/
def onlyExcludedTree : FSTree := .node [plainFile "a.txt" "x" 1] []

/-- An exclude-mode configuration excluding the file name `a.txt`. -/
def excludeATxtCfg : FilterConfig := ⟨[], ["a.txt"], [], []⟩

/-- A tree whose included directory `src` sits directly under the root. -/
def topSrcTree : FSTree :=
  .node [] [("src", .node [plainFile "g.txt" "gg" 3] [])]

/-- The three strings the source appends to `combined_content` for one
framed block. -/
def framePieces (b : List String × String) : List String :=
  ["\n--- START FILE: " ++ relStr b.1 ++ " ---\n\n", b.2,
   "\n\n--- END FILE: " ++ relStr b.1 ++ " ---\n"]

/-! ## Specification-side notions used to state and prove the claims -/

/-- A list of signals none of which is terminal (all progress). -/
def onlyProgress (l : List ScanEvent) : Prop :=
  ∀ e ∈ l, e.isTerminal = false

/-- Decides that `q` is an immediate child path of `p`. -/
def isChildOf (p q : List String) : Bool :=
  decide (q ≠ []) && decide (q.dropLast = p)

/-- Sum of `direct` over all keys at or below `p` (prefix order): the
intended meaning of a cumulative directory size. -/
def subtreeSum (keys : List (List String)) (direct : List String → Nat)
    (p : List String) : Nat :=
  ((keys.filter (fun q => p.isPrefixOf q)).map direct).sum

/-- Contribution already folded into each key after processing the paths
of `done`: every processed non-root path has added its whole subtree sum
into its parent. -/
def contrib (keys : List (List String)) (direct : List String → Nat)
    (done : List (List String)) (x : List String) : Nat :=
  ((done.filter (isChildOf x)).map (subtreeSum keys direct)).sum

/-! ## Induction principle for directory trees -/

mutual
theorem FSTree.my_ind {motive : FSTree → Prop}
    (h : ∀ files subs, (∀ q ∈ subs, motive q.2) → motive (.node files subs)) :
    ∀ t, motive t
  | .node fs subs => h fs subs (FSTree.my_forest_ind h subs)
theorem FSTree.my_forest_ind {motive : FSTree → Prop}
    (h : ∀ files subs, (∀ q ∈ subs, motive q.2) → motive (.node files subs)) :
    ∀ subs : List (String × FSTree), ∀ q ∈ subs, motive q.2
  | (n, t) :: rest, q, hq => by
      rcases List.mem_cons.mp hq with h1 | h1
      · subst h1; exact FSTree.my_ind h t
      · exact FSTree.my_forest_ind h rest q h1
end

/-! ## Generic lemmas: set-as-list insertion, sorting, dictionary folds -/

theorem mem_listInsert {l : List (List String)} {x y : List String} :
    y ∈ listInsert l x ↔ y ∈ l ∨ y = x := by
  unfold listInsert
  by_cases h : x ∈ l
  · simp only [if_pos h]
    constructor
    · exact fun hy => Or.inl hy
    · rintro (hy | rfl) <;> assumption
  · simp [if_neg h]

theorem self_mem_listInsert {l : List (List String)} {x : List String} :
    x ∈ listInsert l x :=
  mem_listInsert.mpr (Or.inr rfl)

theorem listInsert_nodup {l : List (List String)} {x : List String} (h : l.Nodup) :
    (listInsert l x).Nodup := by
  unfold listInsert
  by_cases hx : x ∈ l
  · rw [if_pos hx]; exact h
  · rw [if_neg hx, List.nodup_append]
    refine ⟨h, List.nodup_singleton x, ?_⟩
    intro a ha hb
    rw [List.mem_singleton] at hb
    subst hb
    exact hx ha

theorem mem_foldl_listInsert {xs : List (List String)} :
    ∀ {acc y}, y ∈ xs.foldl listInsert acc ↔ y ∈ acc ∨ y ∈ xs := by
  induction xs with
  | nil => simp
  | cons a xs ih =>
    intro acc y
    rw [List.foldl_cons, ih, mem_listInsert]
    simp only [List.mem_cons]
    tauto

theorem foldl_listInsert_nodup {xs : List (List String)} :
    ∀ {acc}, acc.Nodup → (xs.foldl listInsert acc).Nodup := by
  induction xs with
  | nil => exact fun h => h
  | cons a xs ih => exact fun h => ih (listInsert_nodup h)

theorem mem_closePaths {l : List (List String)} {y : List String} :
    y ∈ closePaths l ↔ (y ∈ l ∨ (∃ p ∈ l, y ∈ properAncestors p) ∨ y = []) := by
  unfold closePaths
  rw [mem_listInsert]
  have h : ∀ (xs : List (List String)) (acc : List (List String)) (y : List String),
      y ∈ xs.foldl (fun acc p => (properAncestors p).foldl listInsert acc) acc ↔
        y ∈ acc ∨ ∃ p ∈ xs, y ∈ properAncestors p := by
    intro xs
    induction xs with
    | nil => simp
    | cons a xs ih =>
      intro acc y
      rw [List.foldl_cons, ih, mem_foldl_listInsert]
      simp only [List.mem_cons]
      constructor
      · rintro ((h1 | h1) | ⟨p, hp, h2⟩)
        · exact Or.inl h1
        · exact Or.inr ⟨a, Or.inl rfl, h1⟩
        · exact Or.inr ⟨p, Or.inr hp, h2⟩
      · rintro (h1 | ⟨p, (rfl | hp), h2⟩)
        · exact Or.inl (Or.inl h1)
        · exact Or.inl (Or.inr h2)
        · exact Or.inr ⟨p, hp, h2⟩
  rw [h]
  constructor
  · rintro ((h1 | h1) | rfl)
    · exact Or.inl h1
    · exact Or.inr (Or.inl h1)
    · exact Or.inr (Or.inr rfl)
  · rintro (h1 | h1 | rfl)
    · exact Or.inl (Or.inl h1)
    · exact Or.inl (Or.inr h1)
    · exact Or.inr rfl

theorem closePaths_nodup {l : List (List String)} (h : l.Nodup) :
    (closePaths l).Nodup := by
  unfold closePaths
  apply listInsert_nodup
  have h2 : ∀ (xs : List (List String)) (acc : List (List String)), acc.Nodup →
      (xs.foldl (fun acc p => (properAncestors p).foldl listInsert acc) acc).Nodup := by
    intro xs
    induction xs with
    | nil => exact fun acc h => h
    | cons a xs ih => exact fun acc h => ih _ (foldl_listInsert_nodup h)
  exact h2 l l h

theorem nil_mem_closePaths {l : List (List String)} : [] ∈ closePaths l :=
  self_mem_listInsert

theorem mem_closePaths_of_mem {l : List (List String)} {y : List String} (h : y ∈ l) :
    y ∈ closePaths l :=
  mem_closePaths.mpr (Or.inl h)

theorem mem_properAncestors {p y : List String} :
    y ∈ properAncestors p ↔ ∃ k, k ≠ 0 ∧ k < p.length ∧ y = p.take k := by
  unfold properAncestors
  simp only [List.mem_map, List.mem_filter, List.mem_range]
  constructor
  · rintro ⟨k, ⟨hk1, hk2⟩, rfl⟩
    exact ⟨k, by simpa using hk2, hk1, rfl⟩
  · rintro ⟨k, hk2, hk1, rfl⟩
    exact ⟨k, ⟨hk1, by simpa using hk2⟩, rfl⟩

theorem dropLast_take {α : Type} (l : List α) (k : Nat) (hk : k < l.length) :
    (l.take (k + 1)).dropLast = l.take k := by
  rw [List.dropLast_eq_take, List.length_take, List.take_take]
  congr 1
  omega

theorem closePaths_parent_closed {l : List (List String)} {p : List String}
    (hp : p ∈ closePaths l) (hne : p ≠ []) : p.dropLast ∈ closePaths l := by
  rcases mem_closePaths.mp hp with h1 | ⟨r, hr, h2⟩ | rfl
  · by_cases hlen : p.length ≤ 1
    · have : p.dropLast = [] := by
        apply List.eq_nil_of_length_eq_zero
        rw [List.length_dropLast]
        omega
      rw [this]; exact nil_mem_closePaths
    · apply mem_closePaths.mpr
      refine Or.inr (Or.inl ⟨p, h1, ?_⟩)
      apply mem_properAncestors.mpr
      refine ⟨p.length - 1, by omega, by omega, ?_⟩
      rw [← List.dropLast_eq_take]
  · rcases mem_properAncestors.mp h2 with ⟨k, hk0, hkl, rfl⟩
    by_cases hk1 : k = 1
    · subst hk1
      have : (r.take 1).dropLast = [] := by
        apply List.eq_nil_of_length_eq_zero
        rw [List.length_dropLast, List.length_take]
        omega
      rw [this]; exact nil_mem_closePaths
    · apply mem_closePaths.mpr
      refine Or.inr (Or.inl ⟨r, hr, ?_⟩)
      apply mem_properAncestors.mpr
      refine ⟨k - 1, by omega, by omega, ?_⟩
      have hk2 : k - 1 + 1 = k := by omega
      calc (r.take k).dropLast = (r.take (k - 1 + 1)).dropLast := by rw [hk2]
        _ = r.take (k - 1) := dropLast_take r (k - 1) (by omega)
  · exact absurd rfl hne

theorem insertSorted_perm (le : List String → List String → Bool) (x : List String) :
    ∀ l, (insertSorted le x l).Perm (x :: l) := by
  intro l
  induction l with
  | nil => simp [insertSorted]
  | cons y ys ih =>
    unfold insertSorted
    by_cases h : le x y
    · rw [if_pos h]
    · rw [if_neg h]
      exact (ih.cons y).trans (List.Perm.swap x y ys)

theorem sortBy_perm (le : List String → List String → Bool) (l : List (List String)) :
    (sortBy le l).Perm l := by
  induction l with
  | nil => simp [sortBy]
  | cons a l ih =>
    unfold sortBy
    rw [List.foldr_cons]
    exact (insertSorted_perm le a _).trans (ih.cons a)

theorem aggOrder_length_of_true {a b : List String} (h : aggOrder a b = true) :
    b.length ≤ a.length := by
  unfold aggOrder at h
  rcases Bool.or_eq_true_iff.mp h with h1 | h1
  · exact Nat.le_of_lt (of_decide_eq_true h1)
  · rcases Bool.and_eq_true_iff.mp h1 with ⟨h2, _⟩
    have h3 : a.length = b.length := by simpa using h2
    omega

theorem aggOrder_length_of_false {a b : List String} (h : aggOrder a b = false) :
    a.length ≤ b.length := by
  unfold aggOrder at h
  rcases Bool.or_eq_false_iff.mp h with ⟨h1, _⟩
  exact Nat.le_of_not_lt (of_decide_eq_false h1)

theorem insertSorted_pairwise {x : List String} :
    ∀ {l : List (List String)},
      l.Pairwise (fun a b => b.length ≤ a.length) →
      (insertSorted aggOrder x l).Pairwise (fun a b => b.length ≤ a.length) := by
  intro l
  induction l with
  | nil => simp [insertSorted]
  | cons y ys ih =>
    intro hp
    rcases List.pairwise_cons.mp hp with ⟨hy, hys⟩
    unfold insertSorted
    by_cases h : aggOrder x y
    · rw [if_pos h]
      apply List.pairwise_cons.mpr
      refine ⟨?_, hp⟩
      intro z hz
      rcases List.mem_cons.mp hz with rfl | hz
      · exact aggOrder_length_of_true h
      · exact le_trans (hy z hz) (aggOrder_length_of_true h)
    · rw [if_neg h]
      apply List.pairwise_cons.mpr
      refine ⟨?_, ih hys⟩
      intro z hz
      have hz2 := (insertSorted_perm aggOrder x ys).mem_iff.mp hz
      rcases List.mem_cons.mp hz2 with rfl | hz2
      · exact aggOrder_length_of_false (Bool.eq_false_iff.mpr h)
      · exact hy z hz2

theorem sortBy_pairwise (l : List (List String)) :
    (sortBy aggOrder l).Pairwise (fun a b => b.length ≤ a.length) := by
  induction l with
  | nil => simp [sortBy]
  | cons a l ih =>
    unfold sortBy
    rw [List.foldr_cons]
    exact insertSorted_pairwise ih

/-! ## The deepest-first aggregation loop computes subtree sums

These lemmas hold for any duplicate-free, parent-closed key set
containing the root `[]` and any processing order that puts deeper paths
first — exactly the invariants the source establishes by synthesizing
ancestors and sorting on `(x.count(os.sep), x)` in reverse. -/

theorem take_pref {α : Type} (l : List α) (n : Nat) : l.take n <+: l :=
  ⟨l.drop n, List.take_append_drop n l⟩

theorem take_mem_of_closed {keys : List (List String)} (hroot : [] ∈ keys)
    (hpar : ∀ p ∈ keys, p ≠ [] → p.dropLast ∈ keys) :
    ∀ (m : Nat) (r : List String), r.length ≤ m → r ∈ keys → ∀ n, r.take n ∈ keys := by
  intro m
  induction m with
  | zero =>
    intro r h hr n
    have he : r = [] := List.eq_nil_of_length_eq_zero (by omega)
    subst he
    simpa using hroot
  | succ m ih =>
    intro r h hr n
    by_cases hn : r.length ≤ n
    · rw [List.take_of_length_le hn]; exact hr
    · push_neg at hn
      have hr0 : r ≠ [] := by
        intro e; subst e; simp at hn
      have h2 : r.dropLast ∈ keys := hpar r hr hr0
      have h3 : r.take n = r.dropLast.take n := by
        rw [List.dropLast_eq_take, List.take_take]
        congr 1
        omega
      rw [h3]
      exact ih r.dropLast (by rw [List.length_dropLast]; omega) h2 n

theorem mem_of_pref_of_closed {keys : List (List String)} (hroot : [] ∈ keys)
    (hpar : ∀ p ∈ keys, p ≠ [] → p.dropLast ∈ keys) {q r : List String}
    (hqr : q <+: r) (hr : r ∈ keys) : q ∈ keys := by
  rw [List.prefix_iff_eq_take.mp hqr]
  exact take_mem_of_closed hroot hpar r.length r le_rfl hr q.length

theorem filter_map_sum_toFinset (keys : List (List String)) (hnd : keys.Nodup)
    (b : List String → Bool) (f : List String → Nat) :
    ((keys.filter b).map f).sum = ∑ q ∈ keys.toFinset.filter (fun q => b q = true), f q := by
  rw [← List.sum_toFinset f (hnd.filter b), List.toFinset_filter]

theorem isChildOf_iff {p q : List String} :
    isChildOf p q = true ↔ q ≠ [] ∧ q.dropLast = p := by
  simp [isChildOf]

theorem length_of_isChildOf {p q : List String} (h : isChildOf p q = true) :
    q.length = p.length + 1 := by
  rcases isChildOf_iff.mp h with ⟨h1, h2⟩
  have h3 := List.length_dropLast q
  rw [h2] at h3
  have h4 : q.length ≠ 0 := by
    intro e
    exact h1 (List.eq_nil_of_length_eq_zero e)
  omega

theorem subtree_decomp {keys : List (List String)} {direct : List String → Nat}
    (hnd : keys.Nodup) (hroot : [] ∈ keys)
    (hpar : ∀ p ∈ keys, p ≠ [] → p.dropLast ∈ keys)
    {p : List String} (hp : p ∈ keys) :
    subtreeSum keys direct p
      = direct p + ((keys.filter (isChildOf p)).map (subtreeSum keys direct)).sum := by
  classical
  unfold subtreeSum
  rw [filter_map_sum_toFinset keys hnd _ direct,
    filter_map_sum_toFinset keys hnd (isChildOf p) _]
  set K := keys.toFinset with hK
  set A := K.filter (fun q => p.isPrefixOf q = true) with hA
  set t := K.filter (fun q => isChildOf p q = true) with ht
  have hpA : p ∈ A := by
    rw [hA, Finset.mem_filter]
    exact ⟨List.mem_toFinset.mpr hp, by simp [List.isPrefixOf_iff_prefix]⟩
  have hmapsto : ∀ q ∈ A.erase p, q.take (p.length + 1) ∈ t := by
    intro q hq
    rcases Finset.mem_erase.mp hq with ⟨hqp, hqA⟩
    rcases Finset.mem_filter.mp hqA with ⟨hqK, hqpref⟩
    have hpref : p <+: q := List.isPrefixOf_iff_prefix.mp hqpref
    have hlen : p.length < q.length := by
      rcases Nat.lt_or_ge p.length q.length with h | h
      · exact h
      · exact absurd (hpref.eq_of_length (Nat.le_antisymm hpref.length_le h)).symm hqp
    rw [ht, Finset.mem_filter]
    constructor
    · exact List.mem_toFinset.mpr
        (mem_of_pref_of_closed hroot hpar (take_pref q (p.length + 1))
          (List.mem_toFinset.mp hqK))
    · apply isChildOf_iff.mpr
      constructor
      · intro e
        have h9 := congrArg List.length e
        rw [List.length_take, List.length_nil] at h9
        omega
      · rw [dropLast_take q p.length hlen]
        exact (List.prefix_iff_eq_take.mp hpref).symm
  have hfiber : ∀ j ∈ t, (A.erase p).filter (fun q => q.take (p.length + 1) = j)
      = K.filter (fun q => j.isPrefixOf q = true) := by
    intro j hj
    rcases Finset.mem_filter.mp hj with ⟨hjK, hjc⟩
    rcases isChildOf_iff.mp hjc with ⟨hj0, hjd⟩
    have hjlen : j.length = p.length + 1 := length_of_isChildOf hjc
    ext q
    rw [Finset.mem_filter, Finset.mem_filter, Finset.mem_erase]
    constructor
    · rintro ⟨⟨hqp, hqA⟩, hgq⟩
      rcases Finset.mem_filter.mp hqA with ⟨hqK, _⟩
      refine ⟨hqK, ?_⟩
      rw [List.isPrefixOf_iff_prefix, ← hgq]
      exact take_pref q (p.length + 1)
    · rintro ⟨hqK, hjq⟩
      have hjq2 : j <+: q := List.isPrefixOf_iff_prefix.mp hjq
      have hqlen : p.length + 1 ≤ q.length := by
        have := hjq2.length_le
        omega
      have hgq : q.take (p.length + 1) = j := by
        have := List.prefix_iff_eq_take.mp hjq2
        rw [← hjlen]
        exact this.symm
      have hpq : p <+: q := by
        have hpj : p <+: j := by
          rw [← hjd, List.dropLast_eq_take]
          exact take_pref j (j.length - 1)
        exact hpj.trans hjq2
      refine ⟨⟨?_, ?_⟩, hgq⟩
      · intro e
        subst e
        omega
      · rw [hA, Finset.mem_filter]
        exact ⟨hqK, by rw [List.isPrefixOf_iff_prefix]; exact hpq⟩
  calc ∑ q ∈ A, direct q
      = ∑ q ∈ A.erase p, direct q + direct p := (Finset.sum_erase_add A direct hpA).symm
    _ = direct p + ∑ q ∈ A.erase p, direct q := by omega
    _ = direct p + ∑ j ∈ t, ∑ q ∈ (A.erase p).filter (fun q => q.take (p.length + 1) = j),
          direct q := by rw [Finset.sum_fiberwise_of_maps_to hmapsto direct]
    _ = direct p + ∑ j ∈ t, subtreeSum keys direct j := by
          congr 1
          apply Finset.sum_congr rfl
          intro j hj
          rw [hfiber j hj]
          unfold subtreeSum
          rw [filter_map_sum_toFinset keys hnd _ direct]

theorem agg_fold_invariant {keys : List (List String)} {direct : List String → Nat}
    (hnd : keys.Nodup) (hroot : [] ∈ keys)
    (hpar : ∀ p ∈ keys, p ≠ [] → p.dropLast ∈ keys) :
    ∀ (todo done : List (List String)),
      (done ++ todo).Perm keys →
      (done ++ todo).Pairwise (fun a b => b.length ≤ a.length) →
      todo.foldl (aggStep keys) (fun x => direct x + contrib keys direct done x)
        = fun x => direct x + contrib keys direct (done ++ todo) x := by
  intro todo
  induction todo with
  | nil =>
    intro done h1 h2
    simp
  | cons p rest ih =>
    intro done hperm hpw
    have hnodall : (done ++ p :: rest).Nodup := hperm.symm.nodup hnd
    have hpk : p ∈ keys := hperm.mem_iff.mp (by simp)
    have hstep : aggStep keys (fun x => direct x + contrib keys direct done x) p
        = fun x => direct x + contrib keys direct (done ++ [p]) x := by
      by_cases hp0 : p = []
      · subst hp0
        have hg : ¬(([] : List String) ≠ [] ∧ ([] : List String).dropLast ∈ keys) := by
          simp
        funext x
        rw [aggStep, if_neg hg]
        unfold contrib
        rw [List.filter_append]
        have h1 : [([] : List String)].filter (isChildOf x) = [] := by
          simp [isChildOf]
        rw [h1, List.append_nil]
      · have hguard : p ≠ [] ∧ p.dropLast ∈ keys := ⟨hp0, hpar p hpk hp0⟩
        have hmp : direct p + contrib keys direct done p = subtreeSum keys direct p := by
          have hfil : (done.filter (isChildOf p)).Perm (keys.filter (isChildOf p)) := by
            have hd1 : done.Nodup := (List.nodup_append.mp hnodall).1
            apply (List.perm_ext_iff_of_nodup (hd1.filter _) (hnd.filter _)).mpr
            intro q
            rw [List.mem_filter, List.mem_filter]
            constructor
            · rintro ⟨hq1, hq2⟩
              exact ⟨hperm.mem_iff.mp (by simp [hq1]), hq2⟩
            · rintro ⟨hq1, hq2⟩
              have hqlen : q.length = p.length + 1 := length_of_isChildOf hq2
              have hqm : q ∈ done ++ p :: rest := hperm.mem_iff.mpr hq1
              rcases List.mem_append.mp hqm with hmem | hmem
              · exact ⟨hmem, hq2⟩
              · rcases List.mem_cons.mp hmem with rfl | hmem
                · omega
                · have hps : (p :: rest).Pairwise (fun a b => b.length ≤ a.length) :=
                    (List.pairwise_append.mp hpw).2.1
                  have := (List.pairwise_cons.mp hps).1 q hmem
                  omega
          unfold contrib
          rw [((hfil.map (subtreeSum keys direct)).sum_eq : _)]
          exact (subtree_decomp hnd hroot hpar hpk).symm
        funext x
        rw [aggStep, if_pos hguard]
        unfold contrib
        rw [List.filter_append]
        have hsingle : [p].filter (isChildOf x)
            = if isChildOf x p = true then [p] else [] := by
          simp [List.filter_singleton]
        by_cases hx : x = p.dropLast
        · have hcx : isChildOf x p = true := isChildOf_iff.mpr ⟨hp0, hx.symm⟩
          rw [if_pos hx, hsingle, if_pos hcx]
          unfold contrib at hmp
          simp only [List.map_append, List.sum_append, List.map_cons, List.map_nil,
            List.sum_cons, List.sum_nil]
          omega
        · have hcx : isChildOf x p = false := by
            apply Bool.eq_false_iff.mpr
            intro hc
            exact hx (isChildOf_iff.mp hc).2.symm
          rw [if_neg hx, hsingle, hcx]
          simp
    rw [List.foldl_cons, hstep]
    have hre := ih (done ++ [p])
      (by rw [List.append_assoc]; simpa using hperm)
      (by rw [List.append_assoc]; simpa using hpw)
    rw [hre, List.append_assoc]
    simp

theorem aggfold_eq_subtreeSum {keys : List (List String)} {direct : List String → Nat}
    (hnd : keys.Nodup) (hroot : [] ∈ keys)
    (hpar : ∀ p ∈ keys, p ≠ [] → p.dropLast ∈ keys)
    {l : List (List String)} (hperm : l.Perm keys)
    (hpw : l.Pairwise (fun a b => b.length ≤ a.length))
    {p : List String} (hp : p ∈ keys) :
    l.foldl (aggStep keys) direct p = subtreeSum keys direct p := by
  have hinit : direct = fun x => direct x + contrib keys direct [] x := by
    funext x
    simp [contrib]
  rw [hinit, agg_fold_invariant hnd hroot hpar l [] (by simpa using hperm)
    (by simpa using hpw)]
  simp only [List.nil_append]
  have hfil : (l.filter (isChildOf p)).Perm (keys.filter (isChildOf p)) :=
    hperm.filter (isChildOf p)
  unfold contrib
  rw [((hfil.map (subtreeSum keys direct)).sum_eq : _)]
  exact (subtree_decomp hnd hroot hpar hp).symm

/-! ## Dictionary folds and the direct-size sums of a walk -/

theorem dictFold_apply (items : List (List String × Nat)) :
    ∀ (m0 : List String → Nat) (q : List String),
      (items.foldl (fun m e => fun x => if x = e.1 then m x + e.2 else m x) m0) q
        = m0 q + ((items.filter (fun e => e.1 = q)).map (·.2)).sum := by
  induction items with
  | nil => simp
  | cons e rest ih =>
    intro m0 q
    rw [List.foldl_cons, ih]
    by_cases h : e.1 = q
    · have h2 : q = e.1 := h.symm
      rw [List.filter_cons, if_pos h2, if_pos (by simpa using h)]
      simp only [List.map_cons, List.sum_cons]
      omega
    · have h2 : ¬q = e.1 := fun e2 => h e2.symm
      rw [List.filter_cons, if_neg h2, if_neg (by simpa using h)]

theorem sum_map_ite_eq {keys : List (List String)} (hnd : keys.Nodup)
    {k : List String} (hk : k ∈ keys) (c : Nat) :
    (keys.map (fun q => if k = q then c else 0)).sum = c := by
  induction keys with
  | nil => simp at hk
  | cons a rest ih =>
    rcases List.nodup_cons.mp hnd with ⟨ha, hrest⟩
    rcases List.mem_cons.mp hk with rfl | hk2
    · have hz : (rest.map (fun q => if k = q then c else 0)).sum = 0 := by
        apply List.sum_eq_zero
        intro x hx
        rcases List.mem_map.mp hx with ⟨q, hq, rfl⟩
        rw [if_neg]
        intro e
        exact ha (e ▸ hq)
      simp [hz]
    · have hak : k ≠ a := by
        intro e
        exact ha (e ▸ hk2)
      simp [hak, ih hrest hk2]

theorem sum_over_keys_of_items (items : List (List String × Nat)) :
    ∀ (keys : List (List String)), keys.Nodup → (∀ e ∈ items, e.1 ∈ keys) →
      (keys.map (fun q => ((items.filter (fun e => e.1 = q)).map (·.2)).sum)).sum
        = (items.map (·.2)).sum := by
  induction items with
  | nil => simp
  | cons e rest ih =>
    intro keys hnd hmem
    have hpt : ∀ q ∈ keys,
        (((e :: rest).filter (fun e2 => e2.1 = q)).map (·.2)).sum
          = (fun q => (if e.1 = q then e.2 else 0)
              + ((rest.filter (fun e2 => e2.1 = q)).map (·.2)).sum) q := by
      intro q _
      by_cases h : e.1 = q
      · rw [List.filter_cons, if_pos (by simpa using h)]
        simp [h]
      · rw [List.filter_cons, if_neg (by simpa using h)]
        simp [h]
    rw [List.map_congr_left hpt, List.sum_map_add, sum_map_ite_eq hnd (hmem e (by simp)),
      ih keys hnd (fun e2 he2 => hmem e2 (by simp [he2]))]
    simp

mutual
theorem walkList_total (t : FSTree) (p : List String) (h : t.allStatOk = true) :
    ((walkList t p).map (fun it => dirDirect it.2.2)).sum = t.totalSize := by
  match t with
  | .node fs subs =>
    have h12 := Bool.and_eq_true_iff.mp
      (show (fs.all (·.statOk) && FSTree.forestAllStatOk subs) = true from h)
    simp only [walkList, List.map_cons, List.sum_cons]
    rw [walkForest_total subs p h12.2]
    unfold dirDirect FSTree.totalSize
    rw [List.filter_eq_self.mpr (List.all_eq_true.mp h12.1)]
theorem walkForest_total (subs : List (String × FSTree)) (p : List String)
    (h : FSTree.forestAllStatOk subs = true) :
    ((walkForest subs p).map (fun it => dirDirect it.2.2)).sum
      = FSTree.forestTotalSize subs := by
  match subs with
  | [] => rfl
  | (n, t) :: rest =>
    have h12 := Bool.and_eq_true_iff.mp
      (show (t.allStatOk && FSTree.forestAllStatOk rest) = true from h)
    simp only [walkForest, List.map_append, List.sum_append]
    rw [walkList_total t (p ++ [n]) h12.1, walkForest_total rest p h12.2]
    rfl
end

theorem all_scanned_paths_eq (t : FSTree) :
    all_scanned_paths t = ((walkList t []).map (·.1)).foldl listInsert [] := by
  rw [List.foldl_map]
  rfl

theorem all_scanned_paths_nodup (t : FSTree) : (all_scanned_paths t).Nodup := by
  rw [all_scanned_paths_eq]
  exact foldl_listInsert_nodup (by simp)

theorem mem_all_scanned_paths {t : FSTree} {q : List String} :
    q ∈ all_scanned_paths t ↔ q ∈ (walkList t []).map (·.1) := by
  rw [all_scanned_paths_eq, mem_foldl_listInsert]
  simp

theorem aggKeys_nodup (t : FSTree) : (aggKeys t).Nodup :=
  closePaths_nodup (all_scanned_paths_nodup t)

theorem nil_mem_aggKeys (t : FSTree) : [] ∈ aggKeys t :=
  nil_mem_closePaths

theorem aggKeys_parent_closed (t : FSTree) :
    ∀ p ∈ aggKeys t, p ≠ [] → p.dropLast ∈ aggKeys t :=
  fun _ hp hne => closePaths_parent_closed hp hne

theorem walk_path_mem_aggKeys {t : FSTree} {it : List String × Nat × List FileEnt}
    (hit : it ∈ walkList t []) : it.1 ∈ aggKeys t :=
  mem_closePaths_of_mem (mem_all_scanned_paths.mpr (List.mem_map_of_mem _ hit))

theorem folder_direct_apply (t : FSTree) (q : List String) :
    folder_direct_file_sizes t q
      = ((((walkList t []).map (fun it => (it.1, dirDirect it.2.2))).filter
          (fun e => e.1 = q)).map (·.2)).sum := by
  have h : folder_direct_file_sizes t
      = (((walkList t []).map (fun it => (it.1, dirDirect it.2.2))).foldl
          (fun m e => fun x => if x = e.1 then m x + e.2 else m x) (fun _ => 0)) := by
    rw [List.foldl_map]
    rfl
  rw [h, dictFold_apply]
  omega

theorem folder_aggregate_eq_subtreeSum {t : FSTree} {p : List String}
    (hp : p ∈ aggKeys t) :
    folder_aggregate_sizes t p
      = subtreeSum (aggKeys t) (folder_direct_file_sizes t) p := by
  unfold folder_aggregate_sizes
  exact aggfold_eq_subtreeSum (aggKeys_nodup t) (nil_mem_aggKeys t)
    (aggKeys_parent_closed t) (sortBy_perm aggOrder (aggKeys t))
    (sortBy_pairwise (aggKeys t)) hp

/-- Claim C1.  For every scanned tree in which no file stat fails, the
aggregation phase assigns each known directory a cumulative size equal to
its direct file-size sum plus the cumulative sizes of its immediate child
directories, and the scan root's cumulative size equals the sum of the
sizes of all files recorded anywhere beneath it. -/
theorem claim_C1 (t : FSTree) (hstat : t.allStatOk = true) :
    (∀ p ∈ aggKeys t,
      folder_aggregate_sizes t p
        = folder_direct_file_sizes t p
          + (((aggKeys t).filter (isChildOf p)).map (folder_aggregate_sizes t)).sum)
    ∧ folder_aggregate_sizes t [] = t.totalSize := by
  have hnd := aggKeys_nodup t
  have hroot := nil_mem_aggKeys t
  have hpar := aggKeys_parent_closed t
  constructor
  · intro p hp
    rw [folder_aggregate_eq_subtreeSum hp, subtree_decomp hnd hroot hpar hp]
    congr 1
    exact congrArg List.sum (List.map_congr_left fun c hc =>
      (folder_aggregate_eq_subtreeSum (List.mem_of_mem_filter hc)).symm)
  · rw [folder_aggregate_eq_subtreeSum hroot]
    unfold subtreeSum
    have hfil : (aggKeys t).filter (fun q => ([] : List String).isPrefixOf q) = aggKeys t := by
      apply List.filter_eq_self.mpr
      intro q _
      rw [List.isPrefixOf_iff_prefix]
      exact List.nil_prefix
    rw [hfil]
    have hpt : ∀ q ∈ aggKeys t,
        folder_direct_file_sizes t q
          = (fun q => ((((walkList t []).map (fun it => (it.1, dirDirect it.2.2))).filter
              (fun e => e.1 = q)).map (·.2)).sum) q :=
      fun q _ => folder_direct_apply t q
    rw [List.map_congr_left hpt,
      sum_over_keys_of_items _ (aggKeys t) hnd ?hmem, List.map_map]
    case hmem =>
      intro e he
      rcases List.mem_map.mp he with ⟨it, hit, rfl⟩
      exact walk_path_mem_aggKeys hit
    have hcomp : ((fun (e : List String × Nat) => e.2) ∘
        fun (it : List String × Nat × List FileEnt) => (it.1, dirDirect it.2.2))
        = fun (it : List String × Nat × List FileEnt) => dirDirect it.2.2 := rfl
    rw [hcomp, walkList_total t [] hstat]

/-- Witness for claim C1: the spec's scenario tree, where the hypotheses
hold and the aggregation yields `a ↦ 30`, `b ↦ 5`, root `↦ 35`. -/
theorem claim_C1_witness :
    scenarioTree.allStatOk = true ∧
    ((∀ p ∈ aggKeys scenarioTree,
      folder_aggregate_sizes scenarioTree p
        = folder_direct_file_sizes scenarioTree p
          + (((aggKeys scenarioTree).filter (isChildOf p)).map
              (folder_aggregate_sizes scenarioTree)).sum)
    ∧ folder_aggregate_sizes scenarioTree [] = scenarioTree.totalSize) :=
  ⟨by decide, claim_C1 scenarioTree (by decide)⟩

/-! ## Tree connectivity of the folder result set (claim C8) -/

theorem countP_eq_one_of_nodup {l : List (List String)} (hnd : l.Nodup)
    {x : List String} (hx : x ∈ l) :
    l.countP (fun q => decide (q = x)) = 1 := by
  induction l with
  | nil => simp at hx
  | cons a rest ih =>
    rcases List.nodup_cons.mp hnd with ⟨ha, hrest⟩
    rw [List.countP_cons]
    rcases List.mem_cons.mp hx with rfl | hx2
    · have hz : rest.countP (fun q => decide (q = x)) = 0 := by
        apply List.countP_eq_zero.mpr
        intro q hq
        simp only [decide_eq_true_eq]
        intro e
        exact ha (e ▸ hq)
      simp [hz]
    · have hax : ¬(a = x) := by
        intro e
        exact ha (e ▸ hx2)
      simp [hax, ih hrest hx2]

/-- Claim C8.  In the folder result set of a completed scan, every record
other than the scan root's has a parent path that is the path of exactly
one other record: the synthesized ancestors keep the tree connected, with
no orphans. -/
theorem claim_C8 (t : FSTree) :
    ∀ r ∈ scanFolderRecs t, r.path ≠ [] →
      r.parent = some r.path.dropLast ∧
      r.path.dropLast ≠ r.path ∧
      (scanFolderRecs t).countP (fun r2 => decide (r2.path = r.path.dropLast)) = 1 := by
  intro r hr hne
  rcases List.mem_map.mp hr with ⟨p, hp, rfl⟩
  simp only [] at hne ⊢
  have hlen : p.length ≠ 0 := fun e => hne (List.eq_nil_of_length_eq_zero e)
  refine ⟨by rw [if_neg hne], ?_, ?_⟩
  · intro e
    have := congrArg List.length e
    rw [List.length_dropLast] at this
    omega
  · unfold scanFolderRecs
    rw [List.countP_map]
    have hpc : p.dropLast ∈ aggKeys t := aggKeys_parent_closed t p hp hne
    have hcomp : ((fun r2 : FolderRec => decide (r2.path = p.dropLast)) ∘
        (fun q => ({ path := q,
                     name := q.getLastD (relStr q),
                     size := folder_aggregate_sizes t q,
                     parent := if q = [] then none else some q.dropLast } : FolderRec)))
        = fun q => decide (q = p.dropLast) := rfl
    rw [hcomp]
    exact countP_eq_one_of_nodup (aggKeys_nodup t) hpc

/-- Witness for claim C8: the record of directory `a` in the scenario
tree's folder result set. -/
theorem claim_C8_witness :
    ({ path := ["a"], name := "a", size := 30, parent := some [] } : FolderRec)
        ∈ scanFolderRecs scenarioTree ∧
    (["a"] : List String) ≠ [] ∧
    (({ path := ["a"], name := "a", size := 30, parent := some [] } : FolderRec).parent
        = some (["a"] : List String).dropLast ∧
      (["a"] : List String).dropLast ≠ ["a"] ∧
      (scanFolderRecs scenarioTree).countP
        (fun r2 => decide (r2.path = (["a"] : List String).dropLast)) = 1) :=
  ⟨by decide, by decide,
    claim_C8 scenarioTree _ (by decide) (by decide)⟩

/-! ## Symbolic links in the scanner (claim C3) -/

/-- Counterexample to claim C3.  The claim asserts every symbolic link
among a directory's files is skipped and contributes no FileRecord and no
bytes; but `FileFolderScanWorker.run` has no `islink` check and `os.stat`
follows links, so the stat-able link of `linkTree` produces a FileRecord
and 7 bytes in both the direct and the cumulative totals. -/
theorem claim_C3_counterexample :
    linkTree.hasFile [] linkEnt = true ∧ linkEnt.isLink = true ∧
    (scanFileRecs linkTree).countP (fun r => decide (r.path = ["lnk.txt"])) = 1 ∧
    folder_direct_file_sizes linkTree [] = 7 ∧
    folder_aggregate_sizes linkTree [] = 7 := by decide

theorem forestHasFile_elim {subs : List (String × FSTree)} {d : String}
    {p : List String} {f : FileEnt}
    (h : FSTree.forestHasFile subs d p f = true) :
    ∃ t', (d, t') ∈ subs ∧ t'.hasFile p f = true := by
  induction subs with
  | nil => simp [FSTree.forestHasFile] at h
  | cons a rest ih =>
    match a with
    | (n, t) =>
      rcases Bool.or_eq_true_iff.mp h with h1 | h1
      · rcases Bool.and_eq_true_iff.mp h1 with ⟨h2, h3⟩
        have : n = d := by simpa using h2
        subst this
        exact ⟨t, by simp, h3⟩
      · rcases ih h1 with ⟨t', ht1, ht2⟩
        exact ⟨t', by simp [ht1], ht2⟩

theorem mem_walkForest_of_mem {subs : List (String × FSTree)} {n : String} {t' : FSTree}
    (hmem : (n, t') ∈ subs) (base : List String)
    {it : List String × Nat × List FileEnt} (hit : it ∈ walkList t' (base ++ [n])) :
    it ∈ walkForest subs base := by
  induction subs with
  | nil => simp at hmem
  | cons a rest ih =>
    match a with
    | (n2, t2) =>
      rcases List.mem_cons.mp hmem with he | hmem2
      · rw [Prod.mk.injEq] at he
        obtain ⟨rfl, rfl⟩ := he
        show it ∈ walkList t' (base ++ [n]) ++ walkForest rest base
        exact List.mem_append_left _ hit
      · show it ∈ walkList t2 (base ++ [n2]) ++ walkForest rest base
        exact List.mem_append_right _ (ih hmem2)

theorem hasFile_walk_item :
    ∀ (t : FSTree) (base rel : List String) (f : FileEnt),
      t.hasFile rel f = true →
      ∃ it ∈ walkList t base, it.1 = base ++ rel ∧ f ∈ it.2.2 := by
  intro t
  induction t using FSTree.my_ind with
  | h fs subs ih =>
    intro base rel f hf
    match rel with
    | [] =>
      refine ⟨(base, subs.length, fs), by simp [walkList], by simp, ?_⟩
      have : fs.contains f = true := hf
      simpa using this
    | d :: rel2 =>
      have hforest : FSTree.forestHasFile subs d rel2 f = true := hf
      rcases forestHasFile_elim hforest with ⟨t', hmem, hhas⟩
      rcases ih (d, t') hmem (base ++ [d]) rel2 f hhas with ⟨it, hit, hpath, hfmem⟩
      refine ⟨it, ?_, ?_, hfmem⟩
      · show it ∈ (base, subs.length, fs) :: walkForest subs base
        exact List.mem_cons_of_mem _ (mem_walkForest_of_mem hmem base hit)
      · rw [hpath, List.append_assoc]
        rfl

/-- Amended claim C3.  The scanner does not skip (or report) symbolic
links among files: `os.stat` follows the link, so every file entry whose
stat succeeds — symlink or not — is recorded as a FileRecord with the
stat size, and only entries whose stat fails are silently omitted. -/
theorem claim_C3_amended (t : FSTree) (rel : List String) (f : FileEnt)
    (hf : t.hasFile rel f = true) (hstat : f.statOk = true) :
    fileRecOf rel f ∈ scanFileRecs t := by
  rcases hasFile_walk_item t [] rel f hf with ⟨it, hit, hpath, hfmem⟩
  unfold scanFileRecs
  apply List.mem_flatMap.mpr
  refine ⟨it, hit, ?_⟩
  apply List.mem_map.mpr
  refine ⟨f, ?_, ?_⟩
  · exact List.mem_filter.mpr ⟨hfmem, hstat⟩
  · rw [hpath]
    rfl

/-- Witness for the amended claim C3: the symbolic link of `linkTree` is
recorded. -/
theorem claim_C3_amended_witness :
    linkTree.hasFile [] linkEnt = true ∧ linkEnt.statOk = true ∧
    fileRecOf [] linkEnt ∈ scanFileRecs linkTree :=
  ⟨by decide, by decide, claim_C3_amended linkTree [] linkEnt (by decide) (by decide)⟩

/-! ## The combiner's walk: framed pieces, block shape, inclusion -/

theorem filterMap_readOk (rel : List String) :
    ∀ (fs : List FileEnt),
      fs.filterMap (fun f => if f.readOk then some (rel ++ [f.name], f.content) else none)
        = (fs.filter (·.readOk)).map (fun f => (rel ++ [f.name], f.content)) := by
  intro fs
  induction fs with
  | nil => rfl
  | cons f rest ih =>
    by_cases h : f.readOk = true
    · simp [List.filterMap_cons, List.filter_cons, h, ih]
    · have h2 : f.readOk = false := Bool.eq_false_iff.mpr h
      simp [List.filterMap_cons, List.filter_cons, h2, ih]

theorem pieces_head_eq (rel : List String) :
    ∀ (chosen : List FileEnt),
      (chosen.flatMap (fun f => if f.readOk then
          ["\n--- START FILE: " ++ relStr (rel ++ [f.name]) ++ " ---\n\n", f.content,
           "\n\n--- END FILE: " ++ relStr (rel ++ [f.name]) ++ " ---\n"] else []))
        = (chosen.filterMap
            (fun f => if f.readOk then some (rel ++ [f.name], f.content) else none)).flatMap
              framePieces := by
  intro chosen
  induction chosen with
  | nil => rfl
  | cons f rest ih =>
    rw [List.flatMap_cons, List.filterMap_cons]
    by_cases h : f.readOk = true
    · simp [h, ih, framePieces]
    · have h2 : f.readOk = false := Bool.eq_false_iff.mpr h
      simp [h2, ih]

mutual
theorem pieces_eq_blocks (cfg : FilterConfig) :
    ∀ (t : FSTree) (rel : List String),
      combineWalkPieces cfg t rel = (combineWalkBlocks cfg t rel).flatMap framePieces
  | .node fs subs, rel => by
    simp only [combineWalkPieces, combineWalkBlocks]
    by_cases hpr : prunedHere cfg rel = true
    · rw [if_pos hpr, if_pos hpr]
      rfl
    · rw [if_neg hpr, if_neg hpr, List.flatMap_append,
        ← pieces_head_eq rel (fs.filter (fun f => !f.isLink && fileSelected cfg f)),
        forest_pieces_eq_blocks cfg subs rel]
theorem forest_pieces_eq_blocks (cfg : FilterConfig) :
    ∀ (subs : List (String × FSTree)) (rel : List String),
      combineForestPieces cfg subs rel
        = (combineForestBlocks cfg subs rel).flatMap framePieces
  | [], _ => rfl
  | (n, t) :: rest, rel => by
    simp only [combineForestPieces, combineForestBlocks]
    rw [List.flatMap_append, forest_pieces_eq_blocks cfg rest rel]
    by_cases h : descendInto cfg n = true
    · rw [if_pos h, if_pos h, pieces_eq_blocks cfg t (rel ++ [n])]
    · rw [if_neg h, if_neg h]
      rfl
end

theorem forest_blocks_shape {cfg : FilterConfig} :
    ∀ {subs : List (String × FSTree)} {rel : List String} {b : List String × String},
      b ∈ combineForestBlocks cfg subs rel →
      ∃ n t', (n, t') ∈ subs ∧ descendInto cfg n = true ∧
        b ∈ combineWalkBlocks cfg t' (rel ++ [n]) := by
  intro subs
  induction subs with
  | nil => intro rel b hb; simp [combineForestBlocks] at hb
  | cons a rest ih =>
    match a with
    | (n, t) =>
      intro rel b hb
      simp only [combineForestBlocks] at hb
      rcases List.mem_append.mp hb with h1 | h1
      · by_cases h : descendInto cfg n = true
        · rw [if_pos h] at h1
          exact ⟨n, t, by simp, h, h1⟩
        · rw [if_neg h] at h1
          simp at h1
      · rcases ih h1 with ⟨n2, t2, hmem, hdesc, hb2⟩
        exact ⟨n2, t2, by simp [hmem], hdesc, hb2⟩

theorem forestHasFile_intro {subs : List (String × FSTree)} {n : String} {t' : FSTree}
    (hmem : (n, t') ∈ subs) {p : List String} {f : FileEnt}
    (hf : t'.hasFile p f = true) :
    FSTree.forestHasFile subs n p f = true := by
  induction subs with
  | nil => simp at hmem
  | cons a rest ih =>
    match a with
    | (n2, t2) =>
      rcases List.mem_cons.mp hmem with he | hmem2
      · rw [Prod.mk.injEq] at he
        obtain ⟨rfl, rfl⟩ := he
        show ((n == n && t'.hasFile p f) || _) = true
        simp [hf]
      · show ((n2 == n && t2.hasFile p f) || FSTree.forestHasFile rest n p f) = true
        rw [ih hmem2]
        simp

theorem mem_forestBlocks_of {cfg : FilterConfig} {subs : List (String × FSTree)}
    {n : String} {t' : FSTree} (hmem : (n, t') ∈ subs)
    (hdesc : descendInto cfg n = true) {rel : List String} {b : List String × String}
    (hb : b ∈ combineWalkBlocks cfg t' (rel ++ [n])) :
    b ∈ combineForestBlocks cfg subs rel := by
  induction subs with
  | nil => simp at hmem
  | cons a rest ih =>
    match a with
    | (n2, t2) =>
      simp only [combineForestBlocks]
      rcases List.mem_cons.mp hmem with he | hmem2
      · rw [Prod.mk.injEq] at he
        obtain ⟨rfl, rfl⟩ := he
        apply List.mem_append_left
        rw [if_pos hdesc]
        exact hb
      · exact List.mem_append_right _ (ih hmem2)

theorem blocks_shape {cfg : FilterConfig} :
    ∀ (t : FSTree) {rel : List String} {b : List String × String},
      b ∈ combineWalkBlocks cfg t rel →
      ∃ sub f, b.1 = (rel ++ sub) ++ [f.name] ∧ b.2 = f.content ∧
        t.hasFile sub f = true ∧
        f.isLink = false ∧ f.readOk = true ∧ fileSelected cfg f = true ∧
        (∀ k, k ≤ sub.length → prunedHere cfg (rel ++ sub.take k) = false) ∧
        (∀ k, k < sub.length → descendInto cfg (sub.getD k "") = true) := by
  intro t
  induction t using FSTree.my_ind with
  | h fs subs ih =>
    intro rel b hb
    simp only [combineWalkBlocks] at hb
    by_cases hpr : prunedHere cfg rel = true
    · rw [if_pos hpr] at hb
      simp at hb
    · rw [if_neg hpr] at hb
      have hprf : prunedHere cfg rel = false := Bool.eq_false_iff.mpr hpr
      rcases List.mem_append.mp hb with h1 | h1
      · rw [filterMap_readOk] at h1
        rcases List.mem_map.mp h1 with ⟨f, hfmem, hfb⟩
        rcases List.mem_filter.mp hfmem with ⟨hfchosen, hfread⟩
        rcases List.mem_filter.mp hfchosen with ⟨hffs, hfsel⟩
        rcases Bool.and_eq_true_iff.mp hfsel with ⟨hflink, hfsel2⟩
        refine ⟨[], f, ?_, ?_, ?_, ?_, hfread, hfsel2, ?_, ?_⟩
        · rw [← hfb]; simp
        · rw [← hfb]
        · show fs.contains f = true
          simpa using hffs
        · simpa using hflink
        · intro k hk
          have hk0 : k = 0 := by simpa using hk
          subst hk0
          simpa using hprf
        · intro k hk
          simp at hk
      · rcases forest_blocks_shape h1 with ⟨n, t', hmem, hdesc, hb2⟩
        rcases ih (n, t') hmem hb2 with
          ⟨sub', f, hb1, hb2c, hhas, hlink, hread, hsel, hprune, hdesc2⟩
        refine ⟨n :: sub', f, ?_, hb2c, ?_, hlink, hread, hsel, ?_, ?_⟩
        · rw [hb1]
          simp
        · exact forestHasFile_intro hmem hhas
        · intro k hk
          match k with
          | 0 => simpa using hprf
          | j + 1 =>
            have h2 := hprune j (by simpa using hk)
            have he : rel ++ (n :: sub').take (j + 1) = (rel ++ [n]) ++ sub'.take j := by
              simp
            rw [he]
            exact h2
        · intro k hk
          match k with
          | 0 => exact hdesc
          | j + 1 => exact hdesc2 j (by simpa using hk)

theorem blocks_mem_of {cfg : FilterConfig} :
    ∀ (t : FSTree) {rel sub : List String} {f : FileEnt},
      t.hasFile sub f = true → f.isLink = false → f.readOk = true →
      fileSelected cfg f = true →
      (∀ k, k ≤ sub.length → prunedHere cfg (rel ++ sub.take k) = false) →
      (∀ k, k < sub.length → descendInto cfg (sub.getD k "") = true) →
      ((rel ++ sub) ++ [f.name], f.content) ∈ combineWalkBlocks cfg t rel := by
  intro t
  induction t using FSTree.my_ind with
  | h fs subs ih =>
    intro rel sub f hhas hlink hread hsel hprune hdesc
    have hprf : prunedHere cfg rel = false := by
      have := hprune 0 (by omega)
      simpa using this
    simp only [combineWalkBlocks]
    rw [if_neg (by rw [hprf]; exact Bool.false_ne_true)]
    match sub with
    | [] =>
      apply List.mem_append_left
      rw [filterMap_readOk]
      apply List.mem_map.mpr
      refine ⟨f, ?_, by simp⟩
      apply List.mem_filter.mpr
      refine ⟨?_, hread⟩
      apply List.mem_filter.mpr
      constructor
      · have : fs.contains f = true := hhas
        simpa using this
      · rw [hlink, hsel]
        rfl
    | d :: sub2 =>
      apply List.mem_append_right
      have hforest : FSTree.forestHasFile subs d sub2 f = true := hhas
      rcases forestHasFile_elim hforest with ⟨t', hmem, hhas2⟩
      have hdesc0 : descendInto cfg d = true := by
        have := hdesc 0 (by simp)
        simpa using this
      have hblock : (((rel ++ [d]) ++ sub2) ++ [f.name], f.content)
          ∈ combineWalkBlocks cfg t' (rel ++ [d]) := by
        apply ih (d, t') hmem hhas2 hlink hread hsel
        · intro k hk
          have h2 := hprune (k + 1) (by simpa using hk)
          have he : rel ++ (d :: sub2).take (k + 1) = (rel ++ [d]) ++ sub2.take k := by
            simp
          rw [he] at h2
          exact h2
        · intro k hk
          exact hdesc (k + 1) (by simpa using hk)
      have he : ((rel ++ [d]) ++ sub2) ++ [f.name] = (rel ++ d :: sub2) ++ [f.name] := by
        simp
      rw [he] at hblock
      exact mem_forestBlocks_of hmem hdesc0 hblock

/-! ## Uniqueness of block keys (claim C7) -/

theorem blocks_key_pref {cfg : FilterConfig} {t : FSTree} {rel : List String}
    {b : List String × String} (hb : b ∈ combineWalkBlocks cfg t rel) :
    rel <+: b.1 ∧ rel.length < b.1.length := by
  rcases blocks_shape t hb with ⟨sub, f, hb1, _⟩
  constructor
  · exact ⟨sub ++ [f.name], by rw [hb1, List.append_assoc]⟩
  · rw [hb1]
    simp only [List.length_append, List.length_cons, List.length_nil]
    omega

theorem take_of_pref_concat {rel : List String} {n : String} {q : List String}
    (h : (rel ++ [n]) <+: q) : q.take (rel.length + 1) = rel ++ [n] := by
  have h2 := List.prefix_iff_eq_take.mp h
  have h3 : (rel ++ [n]).length = rel.length + 1 := by simp
  rw [h3] at h2
  exact h2.symm

mutual
theorem blocks_nodup (cfg : FilterConfig) :
    ∀ (t : FSTree) (rel : List String), t.wfb = true →
      ((combineWalkBlocks cfg t rel).map Prod.fst).Nodup
  | .node fs subs, rel, hwf => by
    have h3 : (decide (fs.map FileEnt.name).Nodup && decide (subs.map Prod.fst).Nodup
        && FSTree.wfForest subs) = true := hwf
    rcases Bool.and_eq_true_iff.mp h3 with ⟨h4, hforest⟩
    rcases Bool.and_eq_true_iff.mp h4 with ⟨hnames, hdirs⟩
    have hnames2 : (fs.map FileEnt.name).Nodup := of_decide_eq_true hnames
    have hdirs2 : (subs.map Prod.fst).Nodup := of_decide_eq_true hdirs
    simp only [combineWalkBlocks]
    by_cases hpr : prunedHere cfg rel = true
    · rw [if_pos hpr]; simp
    · rw [if_neg hpr, List.map_append, List.nodup_append]
      refine ⟨?_, forest_blocks_nodup cfg subs rel hdirs2 hforest, ?_⟩
      · rw [filterMap_readOk, List.map_map]
        have hcomp : (Prod.fst ∘ (fun f : FileEnt => (rel ++ [f.name], f.content)))
            = (fun n => rel ++ [n]) ∘ FileEnt.name := rfl
        rw [hcomp, ← List.map_map]
        apply List.Nodup.map
        · intro a b hab
          simpa using hab
        · have hsub : (((fs.filter (fun f => !f.isLink && fileSelected cfg f)).filter
              (·.readOk)).map FileEnt.name).Sublist (fs.map FileEnt.name) :=
            ((List.filter_sublist _).trans (List.filter_sublist fs)).map FileEnt.name

          exact hnames2.sublist hsub
      · intro a ha hb
        rw [filterMap_readOk, List.map_map] at ha
        rcases List.mem_map.mp ha with ⟨f, _, rfl⟩
        rcases List.mem_map.mp hb with ⟨b2, hb2, he⟩
        rcases forest_blocks_shape hb2 with ⟨n2, t2, _, _, hb2w⟩
        have h5 := (blocks_key_pref hb2w).2
        have h6 : ((Prod.fst ∘ fun f : FileEnt => (rel ++ [f.name], f.content)) f).length
            = rel.length + 1 := by simp
        have h7 : (rel ++ [n2]).length = rel.length + 1 := by simp
        rw [he] at h5
        omega
theorem forest_blocks_nodup (cfg : FilterConfig) :
    ∀ (subs : List (String × FSTree)) (rel : List String),
      (subs.map Prod.fst).Nodup → FSTree.wfForest subs = true →
      ((combineForestBlocks cfg subs rel).map Prod.fst).Nodup
  | [], _, _, _ => by simp [combineForestBlocks]
  | (n, t) :: rest, rel, hnames, hwf => by
    have h2 : (t.wfb && FSTree.wfForest rest) = true := hwf
    rcases Bool.and_eq_true_iff.mp h2 with ⟨hwt, hwr⟩
    have hnames2 : n ∉ rest.map Prod.fst ∧ (rest.map Prod.fst).Nodup := by
      have : (n :: rest.map Prod.fst).Nodup := by simpa using hnames
      exact List.nodup_cons.mp this
    simp only [combineForestBlocks]
    rw [List.map_append, List.nodup_append]
    refine ⟨?_, forest_blocks_nodup cfg rest rel hnames2.2 hwr, ?_⟩
    · by_cases h : descendInto cfg n = true
      · rw [if_pos h]; exact blocks_nodup cfg t (rel ++ [n]) hwt
      · rw [if_neg h]; simp
    · intro a ha hb
      by_cases h : descendInto cfg n = true
      · rw [if_pos h] at ha
        rcases List.mem_map.mp ha with ⟨b1, hb1, rfl⟩
        rcases List.mem_map.mp hb with ⟨b2, hb2, he⟩
        rcases forest_blocks_shape hb2 with ⟨n2, t2, hmem2, _, hb2w⟩
        have hn2 : n2 ∈ rest.map Prod.fst := List.mem_map_of_mem Prod.fst hmem2
        have hne : n ≠ n2 := fun e => hnames2.1 (e ▸ hn2)
        have ht1 := take_of_pref_concat (blocks_key_pref hb1).1
        have ht2 := take_of_pref_concat (blocks_key_pref hb2w).1
        rw [he] at ht2
        rw [ht1] at ht2
        have : n = n2 := by simpa using ht2
        exact hne this
      · rw [if_neg h] at ha
        simp at ha
end

/-- Claim C7.  Every included file appears exactly once in the combiner
output, in traversal order, framed by the literal delimiter strings, and
a 0-byte included file yields an empty content block between its two
delimiters.  The first conjunct equates the appended `combined_content`
pieces with one framed triple per block, in traversal order; the second
gives uniqueness of the `relative_path` keys; the third shows an empty
content block joins to the two adjacent delimiters. -/
theorem claim_C7 (cfg : FilterConfig) (t : FSTree) (hwf : t.wfb = true) :
    combineWalkPieces cfg t [] = (combineWalkBlocks cfg t []).flatMap framePieces
    ∧ ((combineWalkBlocks cfg t []).map Prod.fst).Nodup
    ∧ ∀ b ∈ combineWalkBlocks cfg t [], b.2 = "" →
        framePieces b = ["\n--- START FILE: " ++ relStr b.1 ++ " ---\n\n", "",
          "\n\n--- END FILE: " ++ relStr b.1 ++ " ---\n"] := by
  refine ⟨pieces_eq_blocks cfg t [], blocks_nodup cfg t [] hwf, ?_⟩
  intro b _ hb2
  rw [framePieces, hb2]

/-- Witness for claim C7: the scenario tree with the exclusion of `b`. -/
theorem claim_C7_witness :
    scenarioTree.wfb = true ∧
    (combineWalkPieces excludeBCfg scenarioTree []
        = (combineWalkBlocks excludeBCfg scenarioTree []).flatMap framePieces
    ∧ ((combineWalkBlocks excludeBCfg scenarioTree []).map Prod.fst).Nodup
    ∧ ∀ b ∈ combineWalkBlocks excludeBCfg scenarioTree [], b.2 = "" →
        framePieces b = ["\n--- START FILE: " ++ relStr b.1 ++ " ---\n\n", "",
          "\n\n--- END FILE: " ++ relStr b.1 ++ " ---\n"]) :=
  ⟨by decide, claim_C7 excludeBCfg scenarioTree (by decide)⟩

/-! ## Include-mode directory filtering (claim C2) -/

/-- Counterexample to claim C2.  With `included_dirs = {src}` and no
included files, the readable non-link file `a/src/f.txt` lies under a
directory whose basename is in `included_dirs`, yet produces no block:
the walk prunes at `a` (whose relative path has no matching segment)
before ever reaching `a/src`.  Meanwhile `r.txt`, which lies under no
included directory's subtree, is included, because the scan root is
always processed and an empty `included_files` admits every file of a
processed directory. -/
theorem claim_C2_counterexample :
    includeSrcCfg.includedDirs ≠ [] ∧ includeSrcCfg.includedFiles = [] ∧
    nestedIncludeTree.hasFile ["a", "src"] (plainFile "f.txt" "inner" 2) = true ∧
    "src" ∈ includeSrcCfg.includedDirs ∧
    (plainFile "f.txt" "inner" 2).isLink = false ∧
    (plainFile "f.txt" "inner" 2).readOk = true ∧
    (∀ b ∈ combineWalkBlocks includeSrcCfg nestedIncludeTree [],
      b.1 ≠ ["a", "src", "f.txt"]) ∧
    (["r.txt"], "root-file") ∈ combineWalkBlocks includeSrcCfg nestedIncludeTree [] := by
  decide

/-- Amended claim C2.  With non-empty `included_dirs` and empty
`included_files`, a readable non-link file appears in the combiner output
iff it sits directly in the scan root or the first segment of its
relative directory path is an included directory name.  Deeper matches
are pruned before being reached, and files of the root are always
admitted. -/
theorem claim_C2_amended (cfg : FilterConfig) (t : FSTree) (rel : List String)
    (f : FileEnt) (hd : cfg.includedDirs ≠ []) (hf : cfg.includedFiles = [])
    (hmem : t.hasFile rel f = true) (hlink : f.isLink = false) (hread : f.readOk = true) :
    (rel ++ [f.name], f.content) ∈ combineWalkBlocks cfg t []
      ↔ (rel = [] ∨ ∃ d, rel.head? = some d ∧ d ∈ cfg.includedDirs) := by
  have hde : cfg.includedDirs.isEmpty = false := by
    cases hcd : cfg.includedDirs with
    | nil => exact absurd hcd hd
    | cons a l => rfl
  have hm : cfg.useIncludeMode = true := by
    unfold FilterConfig.useIncludeMode
    rw [hde]
    rfl
  constructor
  · intro hb
    rcases blocks_shape t hb with ⟨sub, f2, hb1, _, _, _, _, _, hprune, _⟩
    have hsub : rel = sub := by
      have h2 := congrArg List.dropLast hb1
      simpa using h2
    subst hsub
    cases hrel : rel with
    | nil => exact Or.inl rfl
    | cons r0 rs =>
      right
      have h1 := hprune 1 (by simp [hrel])
      rw [hrel] at h1
      have h2 : prunedHere cfg [r0] = false := by simpa using h1
      unfold prunedHere at h2
      rw [hm, hde] at h2
      simp at h2
      exact ⟨r0, by simp [hrel], h2⟩
  · intro hcase
    have happ : ((rel ++ [f.name], f.content) : List String × String)
        = (([] ++ rel) ++ [f.name], f.content) := by simp
    rw [happ]
    apply blocks_mem_of t hmem hlink hread
    · simp [fileSelected, hm, hf]
    · intro k hk
      simp only [List.nil_append]
      match k with
      | 0 => simp [prunedHere]
      | j + 1 =>
        cases rel with
        | nil => simp at hk
        | cons r0 rs =>
          have hr0 : r0 ∈ cfg.includedDirs := by
            rcases hcase with h | ⟨d, hdh, hdm⟩
            · exact absurd h (by simp)
            · have he : r0 = d := by simpa using hdh
              exact he ▸ hdm
          have hc : cfg.includedDirs.contains r0 = true := by
            simpa using hr0
          simp [prunedHere, hc]
          intro _ _ h3
          exact absurd hr0 h3
    · intro k _
      simp [descendInto, hm]

/-- Witness for the amended claim C2: with `included_dirs = {src}` on a
tree whose `src` sits at the top level, the file `src/g.txt` is included
iff its first segment matches — and it does. -/
theorem claim_C2_amended_witness :
    includeSrcCfg.includedDirs ≠ [] ∧ includeSrcCfg.includedFiles = [] ∧
    topSrcTree.hasFile ["src"] (plainFile "g.txt" "gg" 3) = true ∧
    ((["src", "g.txt"], "gg") ∈ combineWalkBlocks includeSrcCfg topSrcTree []
      ↔ ((["src"] : List String) = []
          ∨ ∃ d, (["src"] : List String).head? = some d ∧ d ∈ includeSrcCfg.includedDirs)) :=
  ⟨by decide, by decide, by decide,
    claim_C2_amended includeSrcCfg topSrcTree ["src"] (plainFile "g.txt" "gg" 3)
      (by decide) (by decide) (by decide) (by decide) (by decide)⟩

/-! ## Exclude-mode filtering (claim C6) -/

/-- Claim C6.  In exclude mode (both include lists empty), no block's
file basename is an excluded file name, and no segment of any block's
directory path is an excluded directory name — so files named in
`excluded_files` and files anywhere below a directory named in
`excluded_dirs` never appear in the output, at any depth. -/
theorem claim_C6 (cfg : FilterConfig) (t : FSTree)
    (hid : cfg.includedDirs = []) (hif : cfg.includedFiles = []) :
    ∀ b ∈ combineWalkBlocks cfg t [],
      (∀ n, b.1.getLast? = some n → n ∉ cfg.excludedFiles) ∧
      (∀ s ∈ b.1.dropLast, s ∉ cfg.excludedDirs) := by
  have hm : cfg.useIncludeMode = false := by
    simp [FilterConfig.useIncludeMode, hid, hif]
  intro b hb
  rcases blocks_shape t hb with ⟨sub, f, hb1, _, _, _, _, hsel, _, hdesc⟩
  simp only [List.nil_append] at hb1
  constructor
  · intro n hn
    rw [hb1, List.getLast?_concat] at hn
    have hfn : f.name = n := by simpa using hn
    unfold fileSelected at hsel
    rw [hm] at hsel
    simp at hsel
    exact hfn ▸ hsel
  · intro s hs
    rw [hb1, List.dropLast_concat] at hs
    rcases List.mem_iff_getElem.mp hs with ⟨k, hk, hkeq⟩
    have hd := hdesc k hk
    unfold descendInto at hd
    rw [hm] at hd
    simp at hd
    have he : sub[k]?.getD "" = s := by
      rw [List.getElem?_eq_getElem hk, Option.getD_some]
      exact hkeq
    exact he ▸ hd

/-- Witness for claim C6: excluding directory `b` on the scenario tree. -/
theorem claim_C6_witness :
    excludeBCfg.includedDirs = [] ∧ excludeBCfg.includedFiles = [] ∧
    (combineWalkBlocks excludeBCfg scenarioTree []).map Prod.fst
      = [["a", "x.txt"], ["a", "y.txt"]] ∧
    (∀ b ∈ combineWalkBlocks excludeBCfg scenarioTree [],
      (∀ n, b.1.getLast? = some n → n ∉ excludeBCfg.excludedFiles) ∧
      (∀ s ∈ b.1.dropLast, s ∉ excludeBCfg.excludedDirs)) :=
  ⟨by decide, by decide, by decide, claim_C6 excludeBCfg scenarioTree rfl rfl⟩

/-! ## Exclusion lists are never consulted in include mode (claim C5) -/

mutual
theorem pieces_exclusion_indep (exd1 exf1 exd2 exf2 incd incf : List String)
    (hm : FilterConfig.useIncludeMode ⟨exd1, exf1, incd, incf⟩ = true) :
    ∀ (t : FSTree) (rel : List String),
      combineWalkPieces ⟨exd1, exf1, incd, incf⟩ t rel
        = combineWalkPieces ⟨exd2, exf2, incd, incf⟩ t rel
  | .node fs subs, rel => by
    have hm2 : FilterConfig.useIncludeMode ⟨exd2, exf2, incd, incf⟩ = true := hm
    have hpr : prunedHere ⟨exd1, exf1, incd, incf⟩ rel
        = prunedHere ⟨exd2, exf2, incd, incf⟩ rel := rfl
    have hfs : ∀ f : FileEnt, fileSelected ⟨exd1, exf1, incd, incf⟩ f
        = fileSelected ⟨exd2, exf2, incd, incf⟩ f := by
      intro f
      unfold fileSelected
      rw [hm, hm2]
      rfl
    simp only [combineWalkPieces]
    by_cases h : prunedHere ⟨exd1, exf1, incd, incf⟩ rel = true
    · rw [if_pos h, if_pos (hpr ▸ h)]
    · rw [if_neg h, if_neg (hpr ▸ h)]
      have hch : fs.filter (fun f => !f.isLink && fileSelected ⟨exd1, exf1, incd, incf⟩ f)
          = fs.filter (fun f => !f.isLink && fileSelected ⟨exd2, exf2, incd, incf⟩ f) :=
        List.filter_congr (fun f _ => by rw [hfs f])
      rw [hch, forest_pieces_exclusion_indep exd1 exf1 exd2 exf2 incd incf hm subs rel]
theorem forest_pieces_exclusion_indep (exd1 exf1 exd2 exf2 incd incf : List String)
    (hm : FilterConfig.useIncludeMode ⟨exd1, exf1, incd, incf⟩ = true) :
    ∀ (subs : List (String × FSTree)) (rel : List String),
      combineForestPieces ⟨exd1, exf1, incd, incf⟩ subs rel
        = combineForestPieces ⟨exd2, exf2, incd, incf⟩ subs rel
  | [], _ => rfl
  | (n, t) :: rest, rel => by
    have hm2 : FilterConfig.useIncludeMode ⟨exd2, exf2, incd, incf⟩ = true := hm
    have hd1 : descendInto ⟨exd1, exf1, incd, incf⟩ n = true := by
      unfold descendInto
      rw [hm]
      rfl
    have hd2 : descendInto ⟨exd2, exf2, incd, incf⟩ n = true := by
      unfold descendInto
      rw [hm2]
      rfl
    simp only [combineForestPieces]
    rw [if_pos hd1, if_pos hd2,
      pieces_exclusion_indep exd1 exf1 exd2 exf2 incd incf hm t (rel ++ [n]),
      forest_pieces_exclusion_indep exd1 exf1 exd2 exf2 incd incf hm rest rel]
end

/-- Claim C5.  In include mode the excluded sets are never consulted:
for any two choices of exclusion lists, the combiner produces the same
written content and the same boolean result. -/
theorem claim_C5 (rootIsDir outDirOk writeOk : Bool) (t : FSTree)
    (exd1 exf1 exd2 exf2 incd incf : List String)
    (hm : FilterConfig.useIncludeMode ⟨exd1, exf1, incd, incf⟩ = true) :
    combine_files_to_single_file_gui rootIsDir outDirOk writeOk t ⟨exd1, exf1, incd, incf⟩
      = combine_files_to_single_file_gui rootIsDir outDirOk writeOk t
          ⟨exd2, exf2, incd, incf⟩ := by
  unfold combine_files_to_single_file_gui
  rw [pieces_exclusion_indep exd1 exf1 exd2 exf2 incd incf hm t []]

/-- Witness for claim C5: two very different exclusion lists with
`included_dirs = {src}` give identical outcomes on the nested tree. -/
theorem claim_C5_witness :
    FilterConfig.useIncludeMode ⟨["a"], ["r.txt"], ["src"], []⟩ = true ∧
    combine_files_to_single_file_gui true true true nestedIncludeTree
        ⟨["a"], ["r.txt"], ["src"], []⟩
      = combine_files_to_single_file_gui true true true nestedIncludeTree
          ⟨[], [], ["src"], []⟩ :=
  ⟨by decide,
    claim_C5 true true true nestedIncludeTree ["a"] ["r.txt"] [] [] ["src"] [] (by decide)⟩

/-! ## The combiner does not special-case its own output file (claim C9) -/

/-- Claim C9.  The combiner never excludes its own output file from the
walk: any existing regular non-link readable file of the tree that the
active filter admits — in particular the output file itself when it lies
under the root — has its pre-run content read and emitted as a framed
block inside the newly written output. -/
theorem claim_C9 (cfg : FilterConfig) (t : FSTree) (rel : List String) (f : FileEnt)
    (hmem : t.hasFile rel f = true) (hlink : f.isLink = false) (hread : f.readOk = true)
    (hsel : fileSelected cfg f = true)
    (hprune : ∀ k, k ≤ rel.length → prunedHere cfg (rel.take k) = false)
    (hdesc : ∀ k, k < rel.length → descendInto cfg (rel.getD k "") = true) :
    (rel ++ [f.name], f.content) ∈ combineWalkBlocks cfg t [] ∧
    (∃ l1 l2, combineWalkPieces cfg t []
        = l1 ++ (framePieces (rel ++ [f.name], f.content) ++ l2)) ∧
    combine_files_to_single_file_gui true true true t cfg
      = ⟨some (String.join (combineWalkPieces cfg t [])), true⟩ := by
  have hb : (rel ++ [f.name], f.content) ∈ combineWalkBlocks cfg t [] := by
    have h2 := @blocks_mem_of cfg t [] rel f hmem hlink hread hsel
      (by intro k hk; simpa using hprune k hk) hdesc
    simpa using h2
  refine ⟨hb, ?_, rfl⟩
  rcases List.append_of_mem hb with ⟨s1, s2, hsplit⟩
  refine ⟨s1.flatMap framePieces, s2.flatMap framePieces, ?_⟩
  rw [pieces_eq_blocks cfg t [], hsplit]
  rw [List.flatMap_append, List.flatMap_cons]

/-- Witness for claim C9: a root directory already containing the output
file `combined.txt` with its pre-run content, no filters. -/
theorem claim_C9_witness :
    outputFileTree.hasFile [] (plainFile "combined.txt" "old content" 11) = true ∧
    ((([] : List String) ++ ["combined.txt"], "old content")
        ∈ combineWalkBlocks emptyCfg outputFileTree [] ∧
    (∃ l1 l2, combineWalkPieces emptyCfg outputFileTree []
        = l1 ++ (framePieces (([] : List String) ++ ["combined.txt"], "old content") ++ l2)) ∧
    combine_files_to_single_file_gui true true true outputFileTree emptyCfg
      = ⟨some (String.join (combineWalkPieces emptyCfg outputFileTree [])), true⟩) :=
  ⟨by decide,
    claim_C9 emptyCfg outputFileTree [] (plainFile "combined.txt" "old content" 11)
      (by decide) (by decide) (by decide) (by decide)
      (fun k hk => by
        have h0 : k = 0 := Nat.le_zero.mp hk
        subst h0
        decide)
      (fun k hk => absurd hk (Nat.not_lt_zero k))⟩

/-! ## Zero included files still writes an empty output (claim C10) -/

/-- Claim C10.  When the root is valid, the output directory is usable
and the final write raises nothing, a traversal that yields zero included
files still writes the output file — as an empty, zero-byte file — and
returns true: success is not conditioned on any file being included. -/
theorem claim_C10 (t : FSTree) (cfg : FilterConfig)
    (h : combineWalkPieces cfg t [] = []) :
    combine_files_to_single_file_gui true true true t cfg = ⟨some "", true⟩ := by
  unfold combine_files_to_single_file_gui
  rw [h]
  rfl

/-- Witness for claim C10: a tree whose only file is excluded by name. -/
theorem claim_C10_witness :
    combineWalkPieces excludeATxtCfg onlyExcludedTree [] = [] ∧
    combine_files_to_single_file_gui true true true onlyExcludedTree excludeATxtCfg
      = ⟨some "", true⟩ :=
  ⟨by decide, claim_C10 onlyExcludedTree excludeATxtCfg (by decide)⟩

/-! ## The scanner's event discipline (claim C4) -/

theorem filesLoop_ok {cancel : Nat → Bool} {p : List String} :
    ∀ (fs : List FileEnt) (st st' : ScanSt),
      scanFilesLoop cancel p fs st = .ok st' →
      st'.polls = st.polls + fs.length ∧ st'.events = st.events ∧ st'.paths = st.paths ∧
      ∀ i, st.polls ≤ i → i < st.polls + fs.length → cancel i = false := by
  intro fs
  induction fs with
  | nil =>
    intro st st' h
    have he : st = st' := by
      simpa [scanFilesLoop] using h
    subst he
    exact ⟨by simp, rfl, rfl, fun i h1 h2 => by exfalso; simp at h2; omega⟩
  | cons f rest ih =>
    intro st st' h
    by_cases hc : cancel st.polls = true
    · simp [scanFilesLoop, hc] at h
    · simp only [scanFilesLoop, hc, Bool.false_eq_true, if_false] at h
      by_cases hs : f.statOk = true
      · simp only [hs, if_true] at h
        rcases ih _ _ h with ⟨h1, h2, h3, h4⟩
        refine ⟨by simp at h1; simp; omega, by simpa using h2, by simpa using h3, ?_⟩
        intro i hi1 hi2
        rcases Nat.eq_or_lt_of_le hi1 with rfl | hi3
        · exact Bool.eq_false_iff.mpr hc
        · exact h4 i (by simp; omega) (by simp at hi2 ⊢; omega)
      · simp only [hs, Bool.false_eq_true, if_false] at h
        rcases ih _ _ h with ⟨h1, h2, h3, h4⟩
        refine ⟨by simp at h1; simp; omega, by simpa using h2, by simpa using h3, ?_⟩
        intro i hi1 hi2
        rcases Nat.eq_or_lt_of_le hi1 with rfl | hi3
        · exact Bool.eq_false_iff.mpr hc
        · exact h4 i (by simp; omega) (by simp at hi2 ⊢; omega)

theorem filesLoop_err {cancel : Nat → Bool} {p : List String} :
    ∀ (fs : List FileEnt) (st : ScanSt) (evs : List ScanEvent),
      scanFilesLoop cancel p fs st = .error evs →
      evs = st.events ++ [.error "Scan cancelled by user."] := by
  intro fs
  induction fs with
  | nil => intro st evs h; simp [scanFilesLoop] at h
  | cons f rest ih =>
    intro st evs h
    by_cases hc : cancel st.polls = true
    · simp only [scanFilesLoop, hc, if_true] at h
      exact (Except.error.inj h).symm
    · simp only [scanFilesLoop, hc, Bool.false_eq_true, if_false] at h
      by_cases hs : f.statOk = true
      · simp only [hs, if_true] at h
        simpa using ih _ _ h
      · simp only [hs, Bool.false_eq_true, if_false] at h
        simpa using ih _ _ h

theorem filesLoop_cancel {cancel : Nat → Bool} {p : List String} :
    ∀ (fs : List FileEnt) (st : ScanSt),
      (∃ i, st.polls ≤ i ∧ i < st.polls + fs.length ∧ cancel i = true) →
      ∃ evs, scanFilesLoop cancel p fs st = .error evs := by
  intro fs
  induction fs with
  | nil =>
    intro st ⟨i, h1, h2, _⟩
    simp at h2
    omega
  | cons f rest ih =>
    intro st ⟨i, h1, h2, h3⟩
    by_cases hc : cancel st.polls = true
    · exact ⟨st.events ++ [.error "Scan cancelled by user."], by simp [scanFilesLoop, hc]⟩
    · have hne : i ≠ st.polls := fun e => hc (e ▸ h3)
      by_cases hs : f.statOk = true
      · simp only [scanFilesLoop, hc, Bool.false_eq_true, if_false, hs, if_true]
        apply ih
        exact ⟨i, by simp; omega, by simp at h2 ⊢; omega, h3⟩
      · simp only [scanFilesLoop, hc, Bool.false_eq_true, if_false, hs]
        apply ih
        exact ⟨i, by simp; omega, by simp at h2 ⊢; omega, h3⟩

theorem pollsOfItems_cons (p : List String) (ns : Nat) (fs : List FileEnt)
    (rest : List (List String × Nat × List FileEnt)) :
    pollsOfItems ((p, ns, fs) :: rest) = (1 + fs.length) + pollsOfItems rest := by
  simp [pollsOfItems]

theorem walkLoop_ok {cancel : Nat → Bool} :
    ∀ (items : List (List String × Nat × List FileEnt)) (st st' : ScanSt),
      scanWalkLoop cancel items st = .ok st' →
      st'.polls = st.polls + pollsOfItems items ∧
      st'.paths = items.foldl (fun acc it => listInsert acc it.1) st.paths ∧
      (∃ l2, st'.events = st.events ++ l2 ∧ onlyProgress l2) ∧
      ∀ i, st.polls ≤ i → i < st.polls + pollsOfItems items → cancel i = false := by
  intro items
  induction items with
  | nil =>
    intro st st' h
    have he : st = st' := by simpa [scanWalkLoop] using h
    subst he
    refine ⟨by simp [pollsOfItems], by simp, ⟨[], by simp, fun e he => by simp at he⟩, ?_⟩
    intro i h1 h2
    exfalso
    simp [pollsOfItems] at h2
    omega
  | cons it rest ih =>
    match it with
    | (p, ns, fs) =>
      intro st st' h
      by_cases hc : cancel st.polls = true
      · simp [scanWalkLoop, hc] at h
      · simp only [scanWalkLoop, hc, Bool.false_eq_true, if_false] at h
        split at h
        next evs heq => simp at h
        next st2 heq =>
          rcases filesLoop_ok fs _ st2 heq with ⟨hf1, hf2, hf3, hf4⟩
          simp only [] at hf1 hf2 hf3 hf4
          by_cases hm : (st2.items % 1000 == 0) = true
          · simp only [hm, if_true] at h
            rcases ih _ _ h with ⟨h1, h2, ⟨l2, he2, hp2⟩, h4⟩
            refine ⟨?_, ?_, ?_, ?_⟩
            · rw [h1, hf1, pollsOfItems_cons]
              omega
            · rw [h2, hf3]
              rw [List.foldl_cons]
            · refine ⟨[.progress (min (st2.items / 10000) 90)
                ("Scanning: " ++ toString st2.items ++ " items processed...")] ++ l2, ?_, ?_⟩
              · rw [he2, hf2]
                simp
              · intro e he
                rcases List.mem_append.mp he with h5 | h5
                · rcases List.mem_singleton.mp h5 with rfl
                  rfl
                · exact hp2 e h5
            · intro i hi1 hi2
              rcases Nat.eq_or_lt_of_le hi1 with rfl | hi3
              · exact Bool.eq_false_iff.mpr hc
              · rcases Nat.lt_or_ge i (st.polls + 1 + fs.length) with hi4 | hi4
                · exact hf4 i (by omega) (by omega)
                · apply h4 i
                  · rw [hf1]; omega
                  · rw [hf1]
                    rw [pollsOfItems_cons] at hi2
                    omega
          · simp only [hm, Bool.false_eq_true, if_false] at h
            rcases ih _ _ h with ⟨h1, h2, ⟨l2, he2, hp2⟩, h4⟩
            refine ⟨?_, ?_, ?_, ?_⟩
            · rw [h1, hf1, pollsOfItems_cons]
              omega
            · rw [h2, hf3]
              rw [List.foldl_cons]
            · exact ⟨l2, by rw [he2, hf2], hp2⟩
            · intro i hi1 hi2
              rcases Nat.eq_or_lt_of_le hi1 with rfl | hi3
              · exact Bool.eq_false_iff.mpr hc
              · rcases Nat.lt_or_ge i (st.polls + 1 + fs.length) with hi4 | hi4
                · exact hf4 i (by omega) (by omega)
                · apply h4 i
                  · rw [hf1]; omega
                  · rw [hf1]
                    rw [pollsOfItems_cons] at hi2
                    omega

theorem walkLoop_err {cancel : Nat → Bool} :
    ∀ (items : List (List String × Nat × List FileEnt)) (st : ScanSt)
      (evs : List ScanEvent),
      scanWalkLoop cancel items st = .error evs →
      ∃ l2, evs = st.events ++ l2 ++ [.error "Scan cancelled by user."] ∧ onlyProgress l2 := by
  intro items
  induction items with
  | nil => intro st evs h; simp [scanWalkLoop] at h
  | cons it rest ih =>
    match it with
    | (p, ns, fs) =>
      intro st evs h
      by_cases hc : cancel st.polls = true
      · simp only [scanWalkLoop, hc, if_true] at h
        refine ⟨[], ?_, fun e he => by simp at he⟩
        rw [← Except.error.inj h]
        simp
      · simp only [scanWalkLoop, hc, Bool.false_eq_true, if_false] at h
        split at h
        next evs0 heq =>
          have he := Except.error.inj h
          subst he
          have h2 := filesLoop_err fs _ _ heq
          simp only [] at h2
          exact ⟨[], by rw [h2]; simp, fun e he => by simp at he⟩
        next st2 heq =>
          rcases filesLoop_ok fs _ st2 heq with ⟨hf1, hf2, hf3, hf4⟩
          simp only [] at hf2
          by_cases hm : (st2.items % 1000 == 0) = true
          · simp only [hm, if_true] at h
            rcases ih _ _ h with ⟨l2, he2, hp2⟩
            simp only [] at he2
            refine ⟨[.progress (min (st2.items / 10000) 90)
                ("Scanning: " ++ toString st2.items ++ " items processed...")] ++ l2, ?_, ?_⟩
            · rw [he2, hf2]
              simp
            · intro e he
              rcases List.mem_append.mp he with h5 | h5
              · rcases List.mem_singleton.mp h5 with rfl
                rfl
              · exact hp2 e h5
          · simp only [hm, Bool.false_eq_true, if_false] at h
            rcases ih _ _ h with ⟨l2, he2, hp2⟩
            exact ⟨l2, by rw [he2, hf2], hp2⟩

theorem walkLoop_cancel {cancel : Nat → Bool} :
    ∀ (items : List (List String × Nat × List FileEnt)) (st : ScanSt),
      (∃ i, st.polls ≤ i ∧ i < st.polls + pollsOfItems items ∧ cancel i = true) →
      ∃ evs, scanWalkLoop cancel items st = .error evs := by
  intro items
  induction items with
  | nil =>
    intro st ⟨i, h1, h2, _⟩
    exfalso
    simp [pollsOfItems] at h2
    omega
  | cons it rest ih =>
    match it with
    | (p, ns, fs) =>
      intro st ⟨i, h1, h2, h3⟩
      by_cases hc : cancel st.polls = true
      · exact ⟨st.events ++ [.error "Scan cancelled by user."], by simp [scanWalkLoop, hc]⟩
      · have hne : i ≠ st.polls := fun e => hc (e ▸ h3)
        rw [pollsOfItems_cons] at h2
        cases hfr : scanFilesLoop cancel p fs
            { st with
                polls := st.polls + 1,
                paths := listInsert st.paths p,
                items := st.items + ns } with
        | error evs0 =>
          refine ⟨evs0, ?_⟩
          simp only [scanWalkLoop, hc, Bool.false_eq_true, if_false, hfr]
        | ok st2 =>
          rcases filesLoop_ok fs _ st2 hfr with ⟨hf1, _, _, hf4⟩
          simp only [] at hf1 hf4
          rcases Nat.lt_or_ge i (st.polls + 1 + fs.length) with hi4 | hi4
          · exfalso
            have h9 := hf4 i (by omega) (by omega)
            rw [h3] at h9
            exact Bool.noConfusion h9
          · have hrec := ih (if (st2.items % 1000 == 0) = true then
                { st2 with events := st2.events ++
                  [.progress (min (st2.items / 10000) 90)
                    ("Scanning: " ++ toString st2.items ++ " items processed...")] }
              else st2) ⟨i, ?_, ?_, h3⟩
            · rcases hrec with ⟨evs, hevs⟩
              refine ⟨evs, ?_⟩
              simp only [scanWalkLoop, hc, Bool.false_eq_true, if_false, hfr]
              by_cases hm : (st2.items % 1000 == 0) = true
              · rw [if_pos hm] at hevs ⊢
                exact hevs
              · rw [if_neg hm] at hevs ⊢
                exact hevs
            · by_cases hm : (st2.items % 1000 == 0) = true
              · rw [if_pos hm]
                simp only []
                omega
              · rw [if_neg hm]
                omega
            · by_cases hm : (st2.items % 1000 == 0) = true
              · rw [if_pos hm]
                simp only []
                omega
              · rw [if_neg hm]
                omega

theorem aggLoop_ok {cancel : Nat → Bool} {keys : List (List String)} :
    ∀ (l : List (List String)) (polls : Nat) (m : List String → Nat)
      (res : Nat × (List String → Nat)),
      scanAggLoop cancel keys l polls m = .ok res →
      res.1 = polls + l.length ∧ res.2 = l.foldl (aggStep keys) m ∧
      ∀ i, polls ≤ i → i < polls + l.length → cancel i = false := by
  intro l
  induction l with
  | nil =>
    intro polls m res h
    have he : (polls, m) = res := by simpa [scanAggLoop] using h
    subst he
    exact ⟨by simp, by simp, fun i h1 h2 => by exfalso; simp at h2; omega⟩
  | cons q rest ih =>
    intro polls m res h
    by_cases hc : cancel polls = true
    · simp [scanAggLoop, hc] at h
    · simp only [scanAggLoop, hc, Bool.false_eq_true, if_false] at h
      rcases ih _ _ _ h with ⟨h1, h2, h3⟩
      refine ⟨by rw [h1]; simp; omega, by rw [h2, List.foldl_cons], ?_⟩
      intro i hi1 hi2
      rcases Nat.eq_or_lt_of_le hi1 with rfl | hi3
      · exact Bool.eq_false_iff.mpr hc
      · exact h3 i (by omega) (by simp at hi2 ⊢; omega)

theorem aggLoop_err {cancel : Nat → Bool} {keys : List (List String)} :
    ∀ (l : List (List String)) (polls : Nat) (m : List String → Nat) (msg : String),
      scanAggLoop cancel keys l polls m = .error msg →
      msg = "Scan cancelled by user during aggregation." := by
  intro l
  induction l with
  | nil => intro polls m msg h; simp [scanAggLoop] at h
  | cons q rest ih =>
    intro polls m msg h
    by_cases hc : cancel polls = true
    · simp only [scanAggLoop, hc, if_true] at h
      exact (Except.error.inj h).symm
    · simp only [scanAggLoop, hc, Bool.false_eq_true, if_false] at h
      exact ih _ _ _ h

theorem aggLoop_cancel {cancel : Nat → Bool} {keys : List (List String)} :
    ∀ (l : List (List String)) (polls : Nat) (m : List String → Nat),
      (∃ i, polls ≤ i ∧ i < polls + l.length ∧ cancel i = true) →
      ∃ msg, scanAggLoop cancel keys l polls m = .error msg := by
  intro l
  induction l with
  | nil =>
    intro polls m ⟨i, h1, h2, _⟩
    exfalso
    simp at h2
    omega
  | cons q rest ih =>
    intro polls m ⟨i, h1, h2, h3⟩
    by_cases hc : cancel polls = true
    · exact ⟨"Scan cancelled by user during aggregation.", by simp [scanAggLoop, hc]⟩
    · have hne : i ≠ polls := fun e => hc (e ▸ h3)
      simp only [scanAggLoop, hc, Bool.false_eq_true, if_false]
      apply ih
      exact ⟨i, by omega, by simp at h2 ⊢; omega, h3⟩

theorem countP_progress_zero {l : List ScanEvent} (h : onlyProgress l) :
    l.countP ScanEvent.isTerminal = 0 :=
  List.countP_eq_zero.mpr (fun e he => by simp [h e he])

theorem finished_false_of_not_terminal {e : ScanEvent} (h : e.isTerminal = false) :
    e.isFinished = false := by
  cases e with
  | progress pct msg => rfl
  | error m => exact absurd h (by simp [ScanEvent.isTerminal])
  | finished a b => exact absurd h (by simp [ScanEvent.isTerminal])

theorem countP_progress_finished_zero {l : List ScanEvent} (h : onlyProgress l) :
    l.countP ScanEvent.isFinished = 0 :=
  List.countP_eq_zero.mpr
    (fun e he => by simp [finished_false_of_not_terminal (h e he)])

/-- Claim C4.  Every execution of `FileFolderScanWorker.run` emits exactly
one terminal signal — one `finished` carrying both record sets, or one
`error` — never both; and when the cancellation flag is set at a polling
point the run would otherwise reach (per directory, per file, per
aggregation step), the run ends with a cancellation message on the error
channel and never emits `finished`. -/
theorem claim_C4 (validDir : Bool) (t : FSTree) (cancel : Nat → Bool) :
    (FileFolderScanWorker.run validDir t cancel).countP ScanEvent.isTerminal = 1 ∧
    (validDir = true →
      (∃ i, i < totalPolls t ∧ cancel i = true) →
      (FileFolderScanWorker.run validDir t cancel).countP ScanEvent.isFinished = 0 ∧
      ∃ m, ScanEvent.error m ∈ FileFolderScanWorker.run validDir t cancel
        ∧ isCancelMsg m = true) := by
  cases validDir with
  | false =>
    constructor
    · rfl
    · intro hv
      exact absurd hv (by simp)
  | true =>
    cases hw : scanWalkLoop cancel (walkList t [])
        { polls := 0, items := 0, fileRecs := [], direct := fun _ => 0, paths := [],
          events := [.progress 0 "Starting scan..."] } with
    | error evs =>
      rcases walkLoop_err _ _ _ hw with ⟨l2, hevs, hl2⟩
      simp only [FileFolderScanWorker.run, Bool.not_true, Bool.false_eq_true, if_false, hw]
      rw [hevs]
      constructor
      · rw [List.countP_append, List.countP_append, countP_progress_zero hl2]
        rfl
      · intro _ _
        constructor
        · rw [List.countP_append, List.countP_append, countP_progress_finished_zero hl2]
          rfl
        · refine ⟨"Scan cancelled by user.", ?_, by decide⟩
          simp
    | ok st =>
      rcases walkLoop_ok _ _ _ hw with ⟨hp, hpa, ⟨l2, he2, hl2⟩, hcanc1⟩
      cases ha : scanAggLoop cancel (closePaths st.paths)
          (sortBy aggOrder (closePaths st.paths)) st.polls st.direct with
      | error msg =>
        have hmsg := aggLoop_err _ _ _ _ ha
        simp only [FileFolderScanWorker.run, Bool.not_true, Bool.false_eq_true, if_false,
          hw, ha]
        rw [he2]
        constructor
        · rw [List.countP_append, List.countP_append, List.countP_append,
            countP_progress_zero hl2]
          rfl
        · intro _ _
          constructor
          · rw [List.countP_append, List.countP_append, List.countP_append,
              countP_progress_finished_zero hl2]
            rfl
          · refine ⟨msg, ?_, by rw [hmsg]; decide⟩
            simp
      | ok pr =>
        obtain ⟨polls2, agg⟩ := pr
        rcases aggLoop_ok _ _ _ _ ha with ⟨hA1, hA2, hcanc2⟩
        simp only [FileFolderScanWorker.run, Bool.not_true, Bool.false_eq_true, if_false,
          hw, ha]
        rw [he2]
        constructor
        · rw [List.countP_append, List.countP_append, List.countP_append,
            countP_progress_zero hl2]
          rfl
        · intro _ hcl
          exfalso
          rcases hcl with ⟨i, hi, hci⟩
          have hp0 : st.polls = pollsOfItems (walkList t []) := by simpa using hp
          have hkeys : closePaths st.paths = aggKeys t := by
            rw [hpa]
            rfl
          have hlen : (sortBy aggOrder (closePaths st.paths)).length
              = (aggKeys t).length := by
            rw [hkeys]
            exact (sortBy_perm aggOrder (aggKeys t)).length_eq
          unfold totalPolls at hi
          rcases Nat.lt_or_ge i (pollsOfItems (walkList t [])) with hlt | hge
          · have h9 := hcanc1 i (by simp) (by simp; omega)
            rw [hci] at h9
            exact Bool.noConfusion h9
          · have h9 := hcanc2 i (by omega) (by omega)
            rw [hci] at h9
            exact Bool.noConfusion h9

/-- Witness for claim C4: the one-file tree with a flag that is already
set at the first poll — the run emits the cancellation error and no
`finished` signal. -/
theorem claim_C4_witness :
    (∃ i, i < totalPolls linkTree ∧ (fun _ : Nat => true) i = true) ∧
    (FileFolderScanWorker.run true linkTree (fun _ => true)).countP
      ScanEvent.isTerminal = 1 ∧
    ((FileFolderScanWorker.run true linkTree (fun _ => true)).countP
      ScanEvent.isFinished = 0 ∧
    ∃ m, ScanEvent.error m ∈ FileFolderScanWorker.run true linkTree (fun _ => true)
      ∧ isCancelMsg m = true) :=
  ⟨⟨0, by decide, rfl⟩,
    (claim_C4 true linkTree (fun _ => true)).1,
    (claim_C4 true linkTree (fun _ => true)).2 rfl ⟨0, by decide, rfl⟩⟩

/-! ## An uncancelled run delivers exactly the pure pipeline's results

These lemmas connect the evented `FileFolderScanWorker.run` to the pure
definitions (`scanFileRecs`, `folder_direct_file_sizes`,
`folder_aggregate_sizes`, `scanFolderRecs`) the scan claims are stated
about: when the flag is never set, the single `finished` signal carries
exactly those record sets. -/

theorem filesLoop_data {cancel : Nat → Bool} {p : List String} :
    ∀ (fs : List FileEnt) (st st' : ScanSt),
      scanFilesLoop cancel p fs st = .ok st' →
      st'.fileRecs = st.fileRecs ++ (fs.filter (·.statOk)).map (fileRecOf p) ∧
      st'.direct = fun x => if x = p then st.direct x + dirDirect fs else st.direct x := by
  intro fs
  induction fs with
  | nil =>
    intro st st' h
    have he : st = st' := by simpa [scanFilesLoop] using h
    subst he
    constructor
    · simp
    · funext x
      by_cases hx : x = p
      · rw [if_pos hx]
        simp [dirDirect]
      · rw [if_neg hx]
  | cons f rest ih =>
    intro st st' h
    by_cases hc : cancel st.polls = true
    · simp [scanFilesLoop, hc] at h
    · simp only [scanFilesLoop, hc, Bool.false_eq_true, if_false] at h
      by_cases hs : f.statOk = true
      · simp only [hs, if_true] at h
        rcases ih _ _ h with ⟨h1, h2⟩
        constructor
        · rw [h1]
          simp [List.filter_cons, hs]
        · rw [h2]
          funext x
          by_cases hx : x = p
          · simp only [hx, if_pos rfl]
            have hd : dirDirect (f :: rest) = f.size + dirDirect rest := by
              simp [dirDirect, List.filter_cons, hs]
            rw [hd]
            simp
            omega
          · simp only [if_neg hx]
      · simp only [hs, Bool.false_eq_true, if_false] at h
        rcases ih _ _ h with ⟨h1, h2⟩
        constructor
        · rw [h1]
          have hs2 : f.statOk = false := Bool.eq_false_iff.mpr hs
          simp [List.filter_cons, hs2]
        · rw [h2]
          funext x
          by_cases hx : x = p
          · simp only [hx, if_pos rfl]
            have hd : dirDirect (f :: rest) = dirDirect rest := by
              have hs2 : f.statOk = false := Bool.eq_false_iff.mpr hs
              simp [dirDirect, List.filter_cons, hs2]
            rw [hd]
          · simp only [if_neg hx]

theorem walkLoop_data {cancel : Nat → Bool} :
    ∀ (items : List (List String × Nat × List FileEnt)) (st st' : ScanSt),
      scanWalkLoop cancel items st = .ok st' →
      st'.fileRecs = st.fileRecs
        ++ items.flatMap (fun it => (it.2.2.filter (·.statOk)).map (fileRecOf it.1)) ∧
      st'.direct = items.foldl
        (fun m it => fun x => if x = it.1 then m x + dirDirect it.2.2 else m x)
        st.direct := by
  intro items
  induction items with
  | nil =>
    intro st st' h
    have he : st = st' := by simpa [scanWalkLoop] using h
    subst he
    exact ⟨by simp, by simp⟩
  | cons it rest ih =>
    match it with
    | (p, ns, fs) =>
      intro st st' h
      by_cases hc : cancel st.polls = true
      · simp [scanWalkLoop, hc] at h
      · simp only [scanWalkLoop, hc, Bool.false_eq_true, if_false] at h
        split at h
        next evs heq => simp at h
        next st2 heq =>
          rcases filesLoop_data fs _ st2 heq with ⟨hd1, hd2⟩
          by_cases hm : (st2.items % 1000 == 0) = true
          · simp only [hm, if_true] at h
            rcases ih _ _ h with ⟨h1, h2⟩
            constructor
            · rw [h1]
              simp only [] at hd1
              rw [hd1]
              simp [List.flatMap_cons]
            · rw [h2]
              simp only [] at hd2
              rw [List.foldl_cons, hd2]
          · simp only [hm, Bool.false_eq_true, if_false] at h
            rcases ih _ _ h with ⟨h1, h2⟩
            constructor
            · rw [h1, hd1]
              simp [List.flatMap_cons]
            · rw [h2, List.foldl_cons, hd2]

theorem filesLoop_not_error {cancel : Nat → Bool} {p : List String} :
    ∀ (fs : List FileEnt) (st : ScanSt) (evs : List ScanEvent),
      scanFilesLoop cancel p fs st = .error evs → ∃ i, cancel i = true := by
  intro fs
  induction fs with
  | nil => intro st evs h; simp [scanFilesLoop] at h
  | cons f rest ih =>
    intro st evs h
    by_cases hc : cancel st.polls = true
    · exact ⟨st.polls, hc⟩
    · simp only [scanFilesLoop, hc, Bool.false_eq_true, if_false] at h
      by_cases hs : f.statOk = true
      · simp only [hs, if_true] at h
        exact ih _ _ h
      · simp only [hs, Bool.false_eq_true, if_false] at h
        exact ih _ _ h

theorem walkLoop_not_error {cancel : Nat → Bool} :
    ∀ (items : List (List String × Nat × List FileEnt)) (st : ScanSt)
      (evs : List ScanEvent),
      scanWalkLoop cancel items st = .error evs → ∃ i, cancel i = true := by
  intro items
  induction items with
  | nil => intro st evs h; simp [scanWalkLoop] at h
  | cons it rest ih =>
    match it with
    | (p, ns, fs) =>
      intro st evs h
      by_cases hc : cancel st.polls = true
      · exact ⟨st.polls, hc⟩
      · simp only [scanWalkLoop, hc, Bool.false_eq_true, if_false] at h
        split at h
        next evs2 heq => exact filesLoop_not_error _ _ _ heq
        next st2 heq =>
          by_cases hm : (st2.items % 1000 == 0) = true
          · simp only [hm, if_true] at h
            exact ih _ _ h
          · simp only [hm, Bool.false_eq_true, if_false] at h
            exact ih _ _ h

theorem aggLoop_not_error {cancel : Nat → Bool} {keys : List (List String)} :
    ∀ (l : List (List String)) (polls : Nat) (m : List String → Nat) (msg : String),
      scanAggLoop cancel keys l polls m = .error msg → ∃ i, cancel i = true := by
  intro l
  induction l with
  | nil => intro polls m msg h; simp [scanAggLoop] at h
  | cons q rest ih =>
    intro polls m msg h
    by_cases hc : cancel polls = true
    · exact ⟨polls, hc⟩
    · simp only [scanAggLoop, hc, Bool.false_eq_true, if_false] at h
      exact ih _ _ _ h

theorem walkLoop_complete {cancel : Nat → Bool} (hnc : ∀ i, cancel i = false)
    (items : List (List String × Nat × List FileEnt)) (st : ScanSt) :
    ∃ st', scanWalkLoop cancel items st = .ok st' := by
  cases h : scanWalkLoop cancel items st with
  | error evs =>
    rcases walkLoop_not_error _ _ _ h with ⟨i, hi⟩
    rw [hnc i] at hi
    exact absurd hi (by simp)
  | ok st' => exact ⟨st', rfl⟩

theorem aggLoop_complete {cancel : Nat → Bool} {keys : List (List String)}
    (hnc : ∀ i, cancel i = false) (l : List (List String)) (polls : Nat)
    (m : List String → Nat) :
    ∃ res, scanAggLoop cancel keys l polls m = .ok res := by
  cases h : scanAggLoop cancel keys l polls m with
  | error msg =>
    rcases aggLoop_not_error _ _ _ _ h with ⟨i, hi⟩
    rw [hnc i] at hi
    exact absurd hi (by simp)
  | ok res => exact ⟨res, rfl⟩

/-- Coherence of the evented run with the pure pipeline: a run whose
cancellation flag is never set emits some progress signals followed by
exactly one `finished` carrying `scanFileRecs` and `scanFolderRecs`. -/
theorem run_uncancelled (t : FSTree) :
    ∃ evs, onlyProgress evs ∧
      FileFolderScanWorker.run true t (fun _ => false)
        = evs ++ [.finished (scanFileRecs t) (scanFolderRecs t)] := by
  have hnc : ∀ i, (fun _ : Nat => false) i = false := fun _ => rfl
  rcases walkLoop_complete hnc (walkList t [])
      { polls := 0, items := 0, fileRecs := [], direct := fun _ => 0, paths := [],
        events := [.progress 0 "Starting scan..."] } with ⟨st, hw⟩
  rcases walkLoop_ok _ _ _ hw with ⟨hp, hpa, ⟨l2, he2, hl2⟩, _⟩
  rcases walkLoop_data _ _ _ hw with ⟨hrecs, hdir⟩
  rcases aggLoop_complete hnc (sortBy aggOrder (closePaths st.paths)) st.polls st.direct
    with ⟨pr, ha⟩
  obtain ⟨polls2, agg⟩ := pr
  rcases aggLoop_ok _ _ _ _ ha with ⟨_, hagg, _⟩
  have hkeys : closePaths st.paths = aggKeys t := by
    rw [hpa]
    rfl
  have hfr : st.fileRecs = scanFileRecs t := by
    rw [hrecs]
    rfl
  have hdir2 : st.direct = folder_direct_file_sizes t := by
    rw [hdir]
    rfl
  have hagg2 : agg = folder_aggregate_sizes t := by
    have h9 : agg = (sortBy aggOrder (closePaths st.paths)).foldl
        (aggStep (closePaths st.paths)) st.direct := hagg
    rw [h9, hkeys, hdir2]
    rfl
  refine ⟨(st.events ++ [.progress 90 "Finished file scan, now aggregating folder sizes..."])
      ++ [.progress 99 "Generating folder DataFrame...", .progress 100 "Scan complete."],
    ?_, ?_⟩
  · intro e he
    rcases List.mem_append.mp he with h5 | h5
    · rcases List.mem_append.mp h5 with h6 | h6
      · rw [he2] at h6
        rcases List.mem_append.mp h6 with h7 | h7
        · rcases List.mem_singleton.mp (by simpa using h7) with rfl
          rfl
        · exact hl2 e h7
      · rcases List.mem_singleton.mp h6 with rfl
        rfl
    · rcases List.mem_cons.mp h5 with rfl | h6
      · rfl
      · rcases List.mem_singleton.mp h6 with rfl
        rfl
  · simp only [FileFolderScanWorker.run, Bool.not_true, Bool.false_eq_true, if_false,
      hw, ha]
    rw [hkeys, hagg2, hfr]
    have hfolders : (aggKeys t).map (fun p =>
        ({ path := p, name := p.getLastD (relStr p),
           size := folder_aggregate_sizes t p,
           parent := if p = [] then none else some p.dropLast } : FolderRec))
        = scanFolderRecs t := rfl
    rw [hfolders]
    simp

end StorageRepo
